import Mathlib

/-!
Verification of the three grid-traversal programs of this repository:
flood fill (`filling_algorithm.py`), longest consecutive alphabetic path
(`finding_long_way.py`) and 8-directional word search (`word_search.py`).

The Python code is embedded shallowly:

* grids are `List (List α)` (a list of rows), mutated functionally;
* Python indexing `l[i]` (which accepts negative indices and raises
  `IndexError` out of range) is modelled by `pyGet`/`pySet` over `Int`
  indices; an `IndexError` raised by an *unguarded* access surfaces as
  the `PyResult.indexError` outcome;
* the unbounded `while`/recursion of the Python code is modelled with an
  explicit fuel parameter; `none` means the fuel ran out, so
  "the program terminates" is "`some` for every large enough fuel" and
  "the program diverges" is "`none` for every fuel";
* characters of the longest-path exercise are modelled by their code
  points (`Nat`), so the successor character `chr(ord(c) + 1)` is `c + 1`.
-/

/-- A grid coordinate `(row, column)`, as the Python `(r, c)` int pairs. -/
abbrev Coord : Type := Int × Int

/-- Outcome of running a piece of Python code: a normal return value or an
uncaught `IndexError` from an unguarded list access. -/
inductive PyResult (β : Type) where
  | ok : β → PyResult β
  | indexError : PyResult β
deriving DecidableEq, Repr

/-- Resolve a Python list index: negative indices count from the end,
anything out of range is `none` (an `IndexError`). -/
def pyIdx (len : Nat) (i : Int) : Option Nat :=
  if 0 ≤ i then (if i < (len : Int) then some i.toNat else none)
  else (if 0 ≤ i + (len : Int) then some (i + (len : Int)).toNat else none)

/-- Python `l[i]` as a total function (`none` = `IndexError`). -/
def pyGet {β : Type} (l : List β) (i : Int) : Option β :=
  match pyIdx l.length i with
  | some j => l.get? j
  | none => none

/-- Python `l[i] = v`; out-of-range writes (never reached by the guarded
code paths that use this) leave the list unchanged. -/
def pySet {β : Type} (l : List β) (i : Int) (v : β) : List β :=
  match pyIdx l.length i with
  | some j => l.set j v
  | none => l

/-- Python `m[r][c]` on a grid. -/
def pyGet2 {β : Type} (m : List (List β)) (r c : Int) : Option β :=
  match pyGet m r with
  | some row => pyGet row c
  | none => none

/-- Python `m[r][c] = v` on a grid. -/
def pySet2 {β : Type} (m : List (List β)) (r c : Int) (v : β) : List (List β) :=
  match pyIdx m.length r with
  | some j =>
    match m.get? j with
    | some row => m.set j (pySet row c v)
    | none => m
  | none => m

/-- `len(matrix)`. -/
def rowsOf {β : Type} (m : List (List β)) : Nat := m.length

/-- `len(matrix[0]) if rows > 0 else 0`, as computed by every constructor. -/
def colsOf {β : Type} (m : List (List β)) : Nat :=
  match m with
  | [] => 0
  | row :: _ => row.length

/-- The bound check `0 <= r < rows and 0 <= c < cols` shared by all three
neighbour generators. -/
def inGuard (rows cols : Nat) (q : Coord) : Prop :=
  0 ≤ q.1 ∧ q.1 < (rows : Int) ∧ 0 ≤ q.2 ∧ q.2 < (cols : Int)

instance (rows cols : Nat) (q : Coord) : Decidable (inGuard rows cols q) := by
  unfold inGuard; exact inferInstance

/-- A grid of `rows` rows, each of length `cols` (the spec's rectangularity
invariant "all rows have equal length"). -/
def Shape {β : Type} (rows cols : Nat) (m : List (List β)) : Prop :=
  m.length = rows ∧ ∀ row ∈ m, row.length = cols

instance {β : Type} [DecidableEq β] (rows cols : Nat) (m : List (List β)) :
    Decidable (Shape rows cols m) := by
  unfold Shape; exact inferInstance

/-- The 4-connected deltas of the flood fill, in source order. -/
def deltas4 : List Coord := [(0, 1), (0, -1), (1, 0), (-1, 0)]

/-- The 8-connected deltas shared (verbatim) by the longest-path and the
word-search exercises, in source order. -/
def deltas8 : List Coord :=
  [(-1, -1), (-1, 0), (-1, 1), (0, -1), (0, 1), (1, -1), (1, 0), (1, 1)]

/-- All grid coordinates in the `for r in range(rows): for c in range(cols)`
scan order. -/
def cellsList (rows cols : Nat) : List Coord :=
  (List.range rows).flatMap (fun r =>
    (List.range cols).map (fun c => (Int.ofNat r, Int.ofNat c)))

/-- Number of occurrences of `t` in a row. -/
def countEq {α : Type} [DecidableEq α] (t : α) : List α → Nat
  | [] => 0
  | a :: l => (if a = t then 1 else 0) + countEq t l

/-- Number of cells of the whole grid holding `t`. -/
def tCount {α : Type} [DecidableEq α] (t : α) : List (List α) → Nat
  | [] => 0
  | row :: rest => countEq t row + tCount t rest

/-- Number of entries of a row with value `≥ v`. -/
def countGEr (v : Nat) : List Nat → Nat
  | [] => 0
  | a :: l => (if v ≤ a then 1 else 0) + countGEr v l

/-- Number of cells of the whole grid with value `≥ v`. -/
def countGE (v : Nat) : List (List Nat) → Nat
  | [] => 0
  | row :: rest => countGEr v row + countGE v rest

/-! ## Flood fill (`filling_algorithm.py`) -/

/-- The `FloodFillProblem` constructor arguments: the mutable grid, the
fill origin `initial`, and the two colours. -/
structure FloodFillProblem (α : Type) where
  matrix : List (List α)
  start : Coord
  target_color : α
  replacement_color : α

/-- `FloodFillProblem.actions`: the 4-neighbours of `s` that are in bounds
and still hold `target_color` in the current grid `m`, in delta order. -/
def ffActions {α : Type} [DecidableEq α] (rows cols : Nat) (t : α)
    (m : List (List α)) (s : Coord) : List Coord :=
  deltas4.filterMap (fun d =>
    let nr := s.1 + d.1
    let nc := s.2 + d.2
    if inGuard rows cols (nr, nc) then
      if pyGet2 m nr nc = some t then some (nr, nc) else none
    else none)

/-- `problem.result` applied to each popped neighbour in turn:
`matrix[nr][nc] = replacement_color` for every `(nr, nc)` of the list. -/
def paintAll {α : Type} (rep : α) : List (List α) → List Coord → List (List α)
  | m, [] => m
  | m, q :: qs => paintAll rep (pySet2 m q.1 q.2 rep) qs

/-- The `while stack:` loop of `flood_fill_dfs`: pop a cell, paint every
in-bounds 4-neighbour still holding `t` (via `problem.result`) and push it.
The Python stack pushes/pops at the end of the list; here the head of the
list is the top of the stack. `none` means the fuel ran out. -/
def floodLoop {α : Type} [DecidableEq α] (rows cols : Nat) (t rep : α) :
    Nat → List (List α) → List Coord → Option (List (List α))
  | _, m, [] => some m
  | 0, _, _ :: _ => none
  | fuel + 1, m, s :: rest =>
    let ns := ffActions rows cols t m s
    floodLoop rows cols t rep fuel (paintAll rep m ns) (ns.reverse ++ rest)

/-- `flood_fill_dfs`: read the start cell (an unguarded `matrix[r][c]`,
hence the possible `indexError`); if it does not hold `target_color`
return at once; otherwise paint it and run the stack loop. -/
def flood_fill_dfs {α : Type} [DecidableEq α] (p : FloodFillProblem α)
    (fuel : Nat) : Option (PyResult (List (List α))) :=
  match pyGet2 p.matrix p.start.1 p.start.2 with
  | none => some .indexError
  | some v =>
    if v = p.target_color then
      (floodLoop (rowsOf p.matrix) (colsOf p.matrix) p.target_color p.replacement_color
        fuel (pySet2 p.matrix p.start.1 p.start.2 p.replacement_color) [p.start]).map .ok
    else some (.ok p.matrix)

/-- 4-connected reachability from `p` through cells of `m` holding `t`
(both endpoints included), the region the spec says the fill paints. -/
inductive Reach (rows cols : Nat) {α : Type} (t : α) (m : List (List α)) :
    Coord → Coord → Prop
  | refl (p : Coord) : inGuard rows cols p → pyGet2 m p.1 p.2 = some t →
      Reach rows cols t m p p
  | step (p q : Coord) (d : Coord) : Reach rows cols t m p q → d ∈ deltas4 →
      inGuard rows cols (q.1 + d.1, q.2 + d.2) →
      pyGet2 m (q.1 + d.1) (q.2 + d.2) = some t →
      Reach rows cols t m p (q.1 + d.1, q.2 + d.2)

/-- `flood_fill_dfs` never returns normally on this input (it re-enqueues
forever): the observable of the non-terminating Python run. -/
def ffDiverges {α : Type} [DecidableEq α] (p : FloodFillProblem α) : Prop :=
  ∀ fuel, flood_fill_dfs p fuel = none

/-! ## Word search (`word_search.py`) -/

/-- The `for dr, dc in deltas:` loop inside `can_form_word_dfs.dfs`:
try each 8-direction in turn with the recursive search `f` (the search
for the next letter), threading the mutable `visited` set (modelled as a
list of coordinates) through the attempts; when every direction fails,
`visited.remove((r, c))` and report failure. -/
def wsLoop (f : Int → Int → List Coord → Bool × List Coord) :
    List Coord → Int → Int → List Coord → Bool × List Coord
  | [], r, c, visited => (false, visited.erase (r, c))
  | d :: ds, r, c, visited =>
    match f (r + d.1) (c + d.2) visited with
    | (true, v1) => (true, v1)
    | (false, v1) => wsLoop f ds r c v1

/-- `can_form_word_dfs.dfs`. The Python index into `word` is replaced by
the suffix of `word` still to be matched (`index == len(word)` is
`rest = []`, `word[index]` is the head of `rest`). Checks are in source
order: bounds, character match, not-yet-visited; then the cell is marked
and the 8 directions are tried for the next letter. The returned list is
the state of the `visited` set when `dfs` returns. -/
def wsDfs (board : List (List Char)) (rows cols : Nat) :
    List Char → Int → Int → List Coord → Bool × List Coord
  | [], _, _, visited => (true, visited)
  | ch :: rest, r, c, visited =>
    if ¬ inGuard rows cols (r, c) then (false, visited)
    else if pyGet2 board r c ≠ some ch then (false, visited)
    else if (r, c) ∈ visited then (false, visited)
    else wsLoop (wsDfs board rows cols rest) deltas8 r c ((r, c) :: visited)

/-- `can_form_word_dfs`: read `word[0]` (unguarded — `indexError` on the
empty word), then scan the grid in row-major order for cells holding the
first character and run `dfs` from each with a fresh empty visited set,
short-circuiting on the first success. -/
def can_form_word_dfs (board : List (List Char)) (word : List Char) :
    PyResult Bool :=
  match word with
  | [] => .indexError
  | w0 :: _ =>
    .ok ((cellsList (rowsOf board) (colsOf board)).any (fun rc =>
      decide (pyGet2 board rc.1 rc.2 = some w0) &&
      (wsDfs board (rowsOf board) (colsOf board) word rc.1 rc.2 []).1))

/-- The `for w in problem.dictionary:` loop of `find_all_words`,
accumulating the found words (in dictionary order, standing for the
result set). An `IndexError` from `can_form_word_dfs` propagates. -/
def fawGo (board : List (List Char)) :
    List (List Char) → List (List Char) → PyResult (List (List Char))
  | [], acc => .ok acc
  | w :: ws, acc =>
    match can_form_word_dfs board w with
    | .indexError => .indexError
    | .ok true => fawGo board ws (acc ++ [w])
    | .ok false => fawGo board ws acc

/-- `find_all_words` over a dictionary given as a list of words. -/
def find_all_words (board : List (List Char)) (dictionary : List (List Char)) :
    PyResult (List (List Char)) :=
  fawGo board dictionary []

/-! ## Longest consecutive path (`finding_long_way.py`)

Characters are modelled by their code points, so a cell holds a `Nat` and
the Python successor character `chr(ord(curr_char) + 1)` is `curr + 1`. -/

/-- The `LongestConsecutivePathProblem` constructor arguments. -/
structure LongestConsecutivePathProblem where
  matrix : List (List Nat)
  start_char : Nat

/-- The neighbour collection of `LongestConsecutivePathProblem.actions`
once the current character `curr` has been read: the in-bounds
8-neighbours holding the successor character `curr + 1`, in delta order. -/
def lcpChildren (p : LongestConsecutivePathProblem) (s : Coord) (curr : Nat) :
    List Coord :=
  deltas8.filterMap (fun d =>
    let nr := s.1 + d.1
    let nc := s.2 + d.2
    if inGuard (rowsOf p.matrix) (colsOf p.matrix) (nr, nc) then
      if pyGet2 p.matrix nr nc = some (curr + 1) then some (nr, nc) else none
    else none)

/-- `LongestConsecutivePathProblem.actions`: read the current cell with an
unguarded `matrix[r][c]` (`none` = `IndexError`) and collect the in-bounds
8-neighbours holding the successor character. -/
def lcpActions (p : LongestConsecutivePathProblem) (s : Coord) :
    Option (List Coord) :=
  match pyGet2 p.matrix s.1 s.2 with
  | none => none
  | some curr => some (lcpChildren p s curr)

/-- The `for nr, nc in children:` loop of `dfs_longest`: `f` is the
recursive search one fuel step down; `best` accumulates
`max best (1 + dfs_longest(child))`. Fuel exhaustion (`none`) and
`IndexError` propagate. -/
def dfsFoldWith (f : Coord → Option (PyResult Nat)) :
    List Coord → Nat → Option (PyResult Nat)
  | [], best => some (.ok best)
  | q :: rest, best =>
    match f q with
    | none => none
    | some .indexError => some .indexError
    | some (.ok l) => dfsFoldWith f rest (max best (1 + l))

/-- `dfs_longest`: length of the longest strictly-consecutive chain from
cell `s` (at least 1, the cell itself), by unbounded recursive descent —
modelled with fuel. -/
def dfs_longest (p : LongestConsecutivePathProblem) :
    Nat → Coord → Option (PyResult Nat)
  | 0, _ => none
  | fuel + 1, s =>
    match lcpActions p s with
    | none => some .indexError
    | some children => dfsFoldWith (dfs_longest p fuel) children 1

/-- The cell scan of `find_longest_consecutive_path`: for every cell (in
row-major order) holding `start_char`, run `dfs_longest` and keep the
maximum length seen. -/
def flcpFold (p : LongestConsecutivePathProblem) (fuel : Nat) :
    List Coord → Nat → Option (PyResult Nat)
  | [], best => some (.ok best)
  | rc :: rest, best =>
    if pyGet2 p.matrix rc.1 rc.2 = some p.start_char then
      match dfs_longest p fuel rc with
      | none => none
      | some .indexError => some .indexError
      | some (.ok l) => flcpFold p fuel rest (if l > best then l else best)
    else flcpFold p fuel rest best

/-- `find_longest_consecutive_path`: maximum of `dfs_longest` over all
cells holding `start_char`; `0` when there is none. -/
def find_longest_consecutive_path (p : LongestConsecutivePathProblem)
    (fuel : Nat) : Option (PyResult Nat) :=
  flcpFold p fuel (cellsList (rowsOf p.matrix) (colsOf p.matrix)) 0

/-- The character `start_char` occurs in some cell of the grid (decidable,
over the row-major cell scan). -/
def occursB (m : List (List Nat)) (ch : Nat) : Bool :=
  (cellsList (rowsOf m) (colsOf m)).any (fun rc => pyGet2 m rc.1 rc.2 = some ch)

/-! ## Basic access lemmas -/

theorem pyIdx_of_lt {len : Nat} {i : Int} (h0 : 0 ≤ i) (h : i < (len : Int)) :
    pyIdx len i = some i.toNat := by
  simp [pyIdx, h0, h]

theorem pyIdx_some {len : Nat} {i : Int} {j : Nat} (h0 : 0 ≤ i)
    (h : pyIdx len i = some j) : j = i.toNat ∧ i < (len : Int) := by
  unfold pyIdx at h
  rw [if_pos h0] at h
  by_cases hl : i < (len : Int)
  · rw [if_pos hl] at h
    exact ⟨(Option.some_inj.mp h).symm, hl⟩
  · rw [if_neg hl] at h
    exact absurd h (by simp)

theorem pyGet_of_lt {β : Type} {l : List β} {i : Int} (h0 : 0 ≤ i)
    (h : i < (l.length : Int)) : pyGet l i = l.get? i.toNat := by
  simp [pyGet, pyIdx_of_lt h0 h]

theorem pyGet_nonneg_elim {β : Type} {l : List β} {i : Int} {v : β}
    (h0 : 0 ≤ i) (h : pyGet l i = some v) : l.get? i.toNat = some v := by
  unfold pyGet at h
  cases hidx : pyIdx l.length i with
  | none => rw [hidx] at h; exact absurd h (by simp)
  | some j =>
    rw [hidx] at h
    obtain ⟨hj, _⟩ := pyIdx_some h0 hidx
    rwa [hj] at h

theorem pyGet2_nonneg_elim {β : Type} {m : List (List β)} {r c : Int} {v : β}
    (hr : 0 ≤ r) (hc : 0 ≤ c) (h : pyGet2 m r c = some v) :
    ∃ row, m.get? r.toNat = some row ∧ row.get? c.toNat = some v := by
  unfold pyGet2 at h
  cases hrow : pyGet m r with
  | none => rw [hrow] at h; exact absurd h (by simp)
  | some row =>
    rw [hrow] at h
    exact ⟨row, pyGet_nonneg_elim hr hrow, pyGet_nonneg_elim hc h⟩

/-- Under the shared bound guard and rectangularity, `m[r][c]` is the plain
nested `get?` at the corresponding natural indices. -/
theorem pyGet2_eq_cell {β : Type} {rows cols : Nat} {m : List (List β)} {q : Coord}
    (hS : Shape rows cols m) (hg : inGuard rows cols q) :
    pyGet2 m q.1 q.2 =
      match m.get? q.1.toNat with
      | some row => row.get? q.2.toNat
      | none => none := by
  obtain ⟨hlen, hrows⟩ := hS
  obtain ⟨h1, h2, h3, h4⟩ := hg
  unfold pyGet2
  rw [pyGet_of_lt h1 (by rw [hlen]; exact h2)]
  cases hrow : m.get? q.1.toNat with
  | none => rfl
  | some row =>
    have hmem : row ∈ m := List.get?_mem hrow
    show pyGet row q.2 = row.get? q.2.toNat
    rw [pyGet_of_lt h3 (by rw [hrows row hmem]; exact h4)]

theorem pyGet2_isSome {β : Type} {rows cols : Nat} {m : List (List β)} {q : Coord}
    (hS : Shape rows cols m) (hg : inGuard rows cols q) :
    ∃ v, pyGet2 m q.1 q.2 = some v := by
  rw [pyGet2_eq_cell hS hg]
  obtain ⟨hlen, hrows⟩ := hS
  obtain ⟨h1, h2, h3, h4⟩ := hg
  have hr : q.1.toNat < m.length := by omega
  cases hrow : m.get? q.1.toNat with
  | none => rw [List.get?_eq_none] at hrow; omega
  | some row =>
    have hmem : row ∈ m := List.get?_mem hrow
    have hc : q.2.toNat < row.length := by rw [hrows row hmem]; omega
    cases hv : row.get? q.2.toNat with
    | none => rw [List.get?_eq_none] at hv; omega
    | some v =>
      refine ⟨v, ?_⟩
      show row.get? q.2.toNat = some v
      exact hv

theorem length_pySet {β : Type} (l : List β) (i : Int) (v : β) :
    (pySet l i v).length = l.length := by
  unfold pySet
  cases pyIdx l.length i with
  | none => rfl
  | some j => exact List.length_set l j v

theorem shape_pySet2 {β : Type} {rows cols : Nat} {m : List (List β)}
    (hS : Shape rows cols m) (r c : Int) (v : β) :
    Shape rows cols (pySet2 m r c v) := by
  obtain ⟨hlen, hrows⟩ := hS
  unfold pySet2
  split
  · split
    next j row hrow =>
      constructor
      · rw [List.length_set]; exact hlen
      · intro row2 hmem
        rcases List.mem_or_eq_of_mem_set hmem with h | h
        · exact hrows row2 h
        · rw [h, length_pySet]
          exact hrows row (List.get?_mem hrow)
    next => exact ⟨hlen, hrows⟩
  · exact ⟨hlen, hrows⟩

/-- Writing a cell inside the guard then reading it back. -/
theorem pyGet2_pySet2_self {β : Type} {rows cols : Nat} {m : List (List β)} {q : Coord}
    (hS : Shape rows cols m) (hg : inGuard rows cols q) (v : β) :
    pyGet2 (pySet2 m q.1 q.2 v) q.1 q.2 = some v := by
  obtain ⟨hlen, hrows⟩ := hS
  obtain ⟨h1, h2, h3, h4⟩ := hg
  have hS2 : Shape rows cols (pySet2 m q.1 q.2 v) := shape_pySet2 ⟨hlen, hrows⟩ q.1 q.2 v
  have hr : q.1.toNat < m.length := by omega
  cases hrow : m.get? q.1.toNat with
  | none => rw [List.get?_eq_none] at hrow; omega
  | some row =>
    have hmem : row ∈ m := List.get?_mem hrow
    have hc : q.2.toNat < row.length := by rw [hrows row hmem]; omega
    have hset : pySet2 m q.1 q.2 v = m.set q.1.toNat (pySet row q.2 v) := by
      unfold pySet2
      simp only [pyIdx_of_lt h1 (show q.1 < (m.length : Int) by omega), hrow]
    have hsetrow : pySet row q.2 v = row.set q.2.toNat v := by
      unfold pySet
      simp only [pyIdx_of_lt h3 (show q.2 < (row.length : Int) by omega)]
    rw [pyGet2_eq_cell hS2 ⟨h1, h2, h3, h4⟩, hset]
    rw [List.get?_set_eq_of_lt _ hr]
    show (pySet row q.2 v).get? q.2.toNat = some v
    rw [hsetrow]
    exact List.get?_set_eq_of_lt _ hc

/-- Writing one guarded cell does not change any other guarded cell. -/
theorem pyGet2_pySet2_ne {β : Type} {rows cols : Nat} {m : List (List β)} {p q : Coord}
    (hS : Shape rows cols m) (hp : inGuard rows cols p) (hq : inGuard rows cols q)
    (hne : q ≠ p) (v : β) :
    pyGet2 (pySet2 m p.1 p.2 v) q.1 q.2 = pyGet2 m q.1 q.2 := by
  obtain ⟨hlen, hrows⟩ := hS
  obtain ⟨hp1, hp2, hp3, hp4⟩ := hp
  obtain ⟨hq1, hq2, hq3, hq4⟩ := hq
  have hS2 : Shape rows cols (pySet2 m p.1 p.2 v) := shape_pySet2 ⟨hlen, hrows⟩ p.1 p.2 v
  rw [pyGet2_eq_cell hS2 ⟨hq1, hq2, hq3, hq4⟩, pyGet2_eq_cell ⟨hlen, hrows⟩ ⟨hq1, hq2, hq3, hq4⟩]
  have hpr : p.1.toNat < m.length := by omega
  cases hrow : m.get? p.1.toNat with
  | none => rw [List.get?_eq_none] at hrow; omega
  | some row =>
    have hset : pySet2 m p.1 p.2 v = m.set p.1.toNat (pySet row p.2 v) := by
      unfold pySet2
      simp only [pyIdx_of_lt hp1 (show p.1 < (m.length : Int) by omega), hrow]
    rw [hset]
    by_cases hsamerow : q.1.toNat = p.1.toNat
    · have hcol : q.2.toNat ≠ p.2.toNat := by
        intro hcol
        exact hne (Prod.ext (by omega) (by omega))
      rw [hsamerow, List.get?_set_eq_of_lt _ hpr, hrow]
      have hsetrow : pySet row p.2 v = row.set p.2.toNat v := by
        unfold pySet
        simp only [pyIdx_of_lt hp3
          (show p.2 < (row.length : Int) by rw [hrows row (List.get?_mem hrow)]; omega)]
      show (pySet row p.2 v).get? q.2.toNat = row.get? q.2.toNat
      rw [hsetrow]
      exact List.get?_set_ne _ _ (Ne.symm hcol)
    · rw [List.get?_set_ne _ _ (fun h => hsamerow h.symm)]

/-! ## Flood-fill support lemmas -/

theorem ffActions_mem {α : Type} [DecidableEq α] {rows cols : Nat} {t : α}
    {m : List (List α)} {s q : Coord} :
    q ∈ ffActions rows cols t m s ↔
      ∃ d ∈ deltas4, q = (s.1 + d.1, s.2 + d.2) ∧ inGuard rows cols q ∧
        pyGet2 m q.1 q.2 = some t := by
  unfold ffActions
  rw [List.mem_filterMap]
  constructor
  · rintro ⟨d, hd, hq⟩
    dsimp only at hq
    by_cases hg : inGuard rows cols (s.1 + d.1, s.2 + d.2)
    · rw [if_pos hg] at hq
      by_cases hc : pyGet2 m (s.1 + d.1) (s.2 + d.2) = some t
      · rw [if_pos hc] at hq
        cases hq
        exact ⟨d, hd, rfl, hg, hc⟩
      · rw [if_neg hc] at hq; cases hq
    · rw [if_neg hg] at hq; cases hq
  · rintro ⟨d, hd, rfl, hg, hc⟩
    refine ⟨d, hd, ?_⟩
    dsimp only
    rw [if_pos hg, if_pos hc]

theorem ffActions_nodup {α : Type} [DecidableEq α] (rows cols : Nat) (t : α)
    (m : List (List α)) (s : Coord) :
    (ffActions rows cols t m s).Nodup := by
  unfold ffActions
  refine List.Nodup.filterMap ?_ (by decide)
  intro d1 d2 q hq1 hq2
  have h1 : q = (s.1 + d1.1, s.2 + d1.2) := by
    dsimp only at hq1
    by_cases hg : inGuard rows cols (s.1 + d1.1, s.2 + d1.2)
    · rw [if_pos hg] at hq1
      by_cases hc : pyGet2 m (s.1 + d1.1) (s.2 + d1.2) = some t
      · rw [if_pos hc] at hq1; exact (Option.some.inj hq1).symm
      · rw [if_neg hc] at hq1; cases hq1
    · rw [if_neg hg] at hq1; cases hq1
  have h2 : q = (s.1 + d2.1, s.2 + d2.2) := by
    dsimp only at hq2
    by_cases hg : inGuard rows cols (s.1 + d2.1, s.2 + d2.2)
    · rw [if_pos hg] at hq2
      by_cases hc : pyGet2 m (s.1 + d2.1) (s.2 + d2.2) = some t
      · rw [if_pos hc] at hq2; exact (Option.some.inj hq2).symm
      · rw [if_neg hc] at hq2; cases hq2
    · rw [if_neg hg] at hq2; cases hq2
  rw [h1] at h2
  have e1 : s.1 + d1.1 = s.1 + d2.1 := congrArg Prod.fst h2
  have e2 : s.2 + d1.2 = s.2 + d2.2 := congrArg Prod.snd h2
  exact Prod.ext (by omega) (by omega)

theorem paintAll_shape {α : Type} {rows cols : Nat} (rep : α) :
    ∀ (ns : List Coord) (m : List (List α)), Shape rows cols m →
      Shape rows cols (paintAll rep m ns)
  | [], _, hS => hS
  | q :: qs, m, hS =>
    paintAll_shape rep qs (pySet2 m q.1 q.2 rep) (shape_pySet2 hS q.1 q.2 rep)

theorem pyGet2_paintAll {α : Type} [DecidableEq α] {rows cols : Nat} (rep : α) :
    ∀ (ns : List Coord) (m : List (List α)), Shape rows cols m →
      (∀ q ∈ ns, inGuard rows cols q) →
      ∀ p, inGuard rows cols p →
        pyGet2 (paintAll rep m ns) p.1 p.2 =
          if p ∈ ns then some rep else pyGet2 m p.1 p.2 := by
  intro ns
  induction ns with
  | nil => intro m hS _ p _; simp [paintAll]
  | cons a qs ih =>
    intro m hS hg p hp
    have ha : inGuard rows cols a := hg a (by simp)
    have hqs : ∀ q ∈ qs, inGuard rows cols q := fun q hq => hg q (by simp [hq])
    show pyGet2 (paintAll rep (pySet2 m a.1 a.2 rep) qs) p.1 p.2 = _
    rw [ih (pySet2 m a.1 a.2 rep) (shape_pySet2 hS a.1 a.2 rep) hqs p hp]
    by_cases hmem : p ∈ qs
    · rw [if_pos hmem, if_pos (by simp [hmem])]
    · rw [if_neg hmem]
      by_cases hpa : p = a
      · rw [if_pos (by simp [hpa]), hpa]
        exact pyGet2_pySet2_self hS ha rep
      · rw [if_neg (by simp [hpa, hmem])]
        exact pyGet2_pySet2_ne hS ha hp hpa rep

theorem countEq_le_length {α : Type} [DecidableEq α] (t : α) :
    ∀ l : List α, countEq t l ≤ l.length
  | [] => Nat.le_refl 0
  | a :: l => by
    show (if a = t then 1 else 0) + countEq t l ≤ l.length + 1
    have := countEq_le_length t l
    by_cases h : a = t <;> simp [h] <;> omega

theorem tCount_le {α : Type} [DecidableEq α] {rows cols : Nat} (t : α) :
    ∀ m : List (List α), Shape rows cols m → tCount t m ≤ rows * cols := by
  suffices h : ∀ (m : List (List α)) (cols : Nat), (∀ row ∈ m, row.length = cols) →
      tCount t m ≤ m.length * cols by
    intro m hS
    have := h m cols hS.2
    rwa [hS.1] at this
  intro m
  induction m with
  | nil => intro cols _; exact Nat.zero_le _
  | cons row rest ih =>
    intro cols hrows
    show countEq t row + tCount t rest ≤ (rest.length + 1) * cols
    have h1 : countEq t row ≤ cols := by
      have := countEq_le_length t row
      rwa [hrows row (by simp)] at this
    have h2 : tCount t rest ≤ rest.length * cols :=
      ih cols (fun r hr => hrows r (by simp [hr]))
    calc countEq t row + tCount t rest ≤ cols + rest.length * cols := by omega
    _ = (rest.length + 1) * cols := by ring

theorem countEq_set {α : Type} [DecidableEq α] {t v : α} (hne : v ≠ t) :
    ∀ (l : List α) (k : Nat), l.get? k = some t →
      countEq t (l.set k v) + 1 = countEq t l
  | [], k, h => by cases h
  | a :: l, 0, h => by
    have ha : a = t := Option.some.inj h
    show (if v = t then 1 else 0) + countEq t l + 1 = (if a = t then 1 else 0) + countEq t l
    rw [if_neg hne, if_pos ha]
    omega
  | a :: l, k + 1, h => by
    show (if a = t then 1 else 0) + countEq t (l.set k v) + 1 =
      (if a = t then 1 else 0) + countEq t l
    have := countEq_set hne l k h
    omega

theorem tCount_set_add {α : Type} [DecidableEq α] (t : α) :
    ∀ (m : List (List α)) (j : Nat) (row row2 : List α), m.get? j = some row →
      tCount t (m.set j row2) + countEq t row = tCount t m + countEq t row2
  | [], j, _, _, h => by cases h
  | r0 :: rest, 0, row, row2, h => by
    have : r0 = row := Option.some.inj h
    subst this
    show countEq t row2 + tCount t rest + countEq t r0 =
      countEq t r0 + tCount t rest + countEq t row2
    omega
  | r0 :: rest, j + 1, row, row2, h => by
    show countEq t r0 + tCount t (rest.set j row2) + countEq t row =
      countEq t r0 + tCount t rest + countEq t row2
    have := tCount_set_add t rest j row row2 h
    omega

/-- Painting one guarded target cell with a different colour lowers the
target-cell count by exactly one. -/
theorem tCount_pySet2 {α : Type} [DecidableEq α] {rows cols : Nat} {t rep : α}
    (hne : rep ≠ t) {m : List (List α)} {a : Coord} (hS : Shape rows cols m)
    (hg : inGuard rows cols a) (hc : pyGet2 m a.1 a.2 = some t) :
    tCount t (pySet2 m a.1 a.2 rep) + 1 = tCount t m := by
  obtain ⟨hlen, hrows⟩ := hS
  obtain ⟨h1, h2, h3, h4⟩ := hg
  obtain ⟨row, hrow, hcell⟩ := pyGet2_nonneg_elim h1 h3 hc
  have hset : pySet2 m a.1 a.2 rep = m.set a.1.toNat (pySet row a.2 rep) := by
    unfold pySet2
    simp only [pyIdx_of_lt h1 (show a.1 < (m.length : Int) by rw [hlen]; omega), hrow]
  have hsetrow : pySet row a.2 rep = row.set a.2.toNat rep := by
    unfold pySet
    have hlt : a.2.toNat < row.length := by
      by_contra hcon
      rw [List.get?_eq_none.mpr (by omega)] at hcell
      cases hcell
    simp only [pyIdx_of_lt h3 (show a.2 < (row.length : Int) by omega)]
  have hcount : countEq t (row.set a.2.toNat rep) + 1 = countEq t row :=
    countEq_set hne row a.2.toNat hcell
  have hadd := tCount_set_add t m a.1.toNat row (pySet row a.2 rep) hrow
  rw [hset]
  rw [hsetrow] at hadd ⊢
  omega

/-- Painting a duplicate-free list of guarded target cells lowers the
target-cell count by the length of the list. -/
theorem tCount_paintAll {α : Type} [DecidableEq α] {rows cols : Nat} {t rep : α}
    (hne : rep ≠ t) :
    ∀ (ns : List Coord) (m : List (List α)), Shape rows cols m → ns.Nodup →
      (∀ q ∈ ns, inGuard rows cols q ∧ pyGet2 m q.1 q.2 = some t) →
      tCount t (paintAll rep m ns) + ns.length = tCount t m := by
  intro ns
  induction ns with
  | nil => intro m _ _ _; rfl
  | cons a qs ih =>
    intro m hS hnd hq
    have ha := hq a (by simp)
    have hS2 : Shape rows cols (pySet2 m a.1 a.2 rep) := shape_pySet2 hS a.1 a.2 rep
    have hnd2 : qs.Nodup := (List.nodup_cons.mp hnd).2
    have hamem : a ∉ qs := (List.nodup_cons.mp hnd).1
    have hq2 : ∀ q ∈ qs, inGuard rows cols q ∧
        pyGet2 (pySet2 m a.1 a.2 rep) q.1 q.2 = some t := by
      intro q hqmem
      obtain ⟨hg, hc⟩ := hq q (by simp [hqmem])
      refine ⟨hg, ?_⟩
      rw [pyGet2_pySet2_ne hS ha.1 hg (fun h => hamem (h ▸ hqmem)) rep]
      exact hc
    have hone := tCount_pySet2 hne hS ha.1 ha.2
    have := ih (pySet2 m a.1 a.2 rep) hS2 hnd2 hq2
    show tCount t (paintAll rep (pySet2 m a.1 a.2 rep) qs) + (qs.length + 1) = tCount t m
    omega

theorem floodLoop_nil {α : Type} [DecidableEq α] {rows cols : Nat} {t rep : α}
    (m : List (List α)) : ∀ fuel, floodLoop rows cols t rep fuel m [] = some m
  | 0 => rfl
  | _ + 1 => rfl

/-- More fuel never changes a result the loop already reaches. -/
theorem floodLoop_mono {α : Type} [DecidableEq α] {rows cols : Nat} {t rep : α} :
    ∀ {fuel : Nat} {m m2 : List (List α)} {stack : List Coord},
      floodLoop rows cols t rep fuel m stack = some m2 →
      ∀ {fuel2 : Nat}, fuel ≤ fuel2 →
        floodLoop rows cols t rep fuel2 m stack = some m2 := by
  intro fuel
  induction fuel with
  | zero =>
    intro m m2 stack h fuel2 _
    cases stack with
    | nil =>
      rw [floodLoop_nil m fuel2]
      rw [floodLoop_nil m 0] at h
      exact h
    | cons s rest => cases h
  | succ fuel ih =>
    intro m m2 stack h fuel2 hle
    cases stack with
    | nil =>
      rw [floodLoop_nil m fuel2]
      rw [floodLoop_nil m (fuel + 1)] at h
      exact h
    | cons s rest =>
      cases fuel2 with
      | zero => omega
      | succ fuel2 =>
        show floodLoop rows cols t rep fuel2
          (paintAll rep m (ffActions rows cols t m s))
          ((ffActions rows cols t m s).reverse ++ rest) = some m2
        exact ih h (by omega)

/-- Loop invariant of the flood-fill stack loop relative to the original
grid `m0` and the fill origin `start`: the shape is preserved; a guarded
cell whose value changed is a reachable original-target cell now holding
the replacement colour; every stack entry is a guarded, reachable,
already-painted original-target cell; and every painted cell is either
still on the stack or has all its guarded original-target 4-neighbours
painted. -/
def FFInv {α : Type} [DecidableEq α] (rows cols : Nat) (t rep : α)
    (m0 : List (List α)) (start : Coord)
    (m : List (List α)) (stack : List Coord) : Prop :=
  Shape rows cols m ∧
  (∀ q, inGuard rows cols q → pyGet2 m q.1 q.2 ≠ pyGet2 m0 q.1 q.2 →
    pyGet2 m q.1 q.2 = some rep ∧ pyGet2 m0 q.1 q.2 = some t ∧
      Reach rows cols t m0 start q) ∧
  (∀ q ∈ stack, inGuard rows cols q ∧ pyGet2 m0 q.1 q.2 = some t ∧
    pyGet2 m q.1 q.2 = some rep ∧ Reach rows cols t m0 start q) ∧
  (∀ q, inGuard rows cols q → pyGet2 m0 q.1 q.2 = some t →
    pyGet2 m q.1 q.2 = some rep →
    q ∈ stack ∨ ∀ d ∈ deltas4, inGuard rows cols (q.1 + d.1, q.2 + d.2) →
      pyGet2 m0 (q.1 + d.1) (q.2 + d.2) = some t →
      pyGet2 m (q.1 + d.1) (q.2 + d.2) = some rep)

/-- The flood-fill stack loop terminates (with fuel at least
`2·(target cells) + stack size`) and preserves the invariant; painted
cells stay painted. -/
theorem floodLoop_ok {α : Type} [DecidableEq α] {rows cols : Nat} {t rep : α}
    (hne : t ≠ rep) (m0 : List (List α)) (start : Coord) :
    ∀ (fuel : Nat) (m : List (List α)) (stack : List Coord),
      FFInv rows cols t rep m0 start m stack →
      2 * tCount t m + stack.length ≤ fuel →
      ∃ m2, floodLoop rows cols t rep fuel m stack = some m2 ∧
        FFInv rows cols t rep m0 start m2 [] ∧
        (∀ q, inGuard rows cols q → pyGet2 m q.1 q.2 = some rep →
          pyGet2 m2 q.1 q.2 = some rep) := by
  intro fuel
  induction fuel with
  | zero =>
    intro m stack hInv hfuel
    cases stack with
    | nil => exact ⟨m, floodLoop_nil m 0, hInv, fun q _ h => h⟩
    | cons s rest => rw [List.length_cons] at hfuel; omega
  | succ fuel ih =>
    intro m stack hInv hfuel
    cases stack with
    | nil => exact ⟨m, floodLoop_nil m _, hInv, fun q _ h => h⟩
    | cons s rest =>
      obtain ⟨hShape, hI1, hStk, hI3⟩ := hInv
      obtain ⟨hgs, hm0s, hms, hRs⟩ := hStk s (by simp)
      have hnsfacts : ∀ q ∈ ffActions rows cols t m s,
          inGuard rows cols q ∧ pyGet2 m q.1 q.2 = some t ∧
          pyGet2 m0 q.1 q.2 = some t ∧ Reach rows cols t m0 start q := by
        intro q hq
        obtain ⟨d, hd, hqeq, hg, hc⟩ := ffActions_mem.mp hq
        have hm0q : pyGet2 m0 q.1 q.2 = some t := by
          by_cases hch : pyGet2 m q.1 q.2 = pyGet2 m0 q.1 q.2
          · rw [← hch]; exact hc
          · obtain ⟨hrep, _, _⟩ := hI1 q hg hch
            rw [hrep] at hc
            exact absurd (Option.some.inj hc).symm hne
        subst hqeq
        exact ⟨hg, hc, hm0q, Reach.step start s d hRs hd hg hm0q⟩
      have hnod := ffActions_nodup rows cols t m s
      have hguards : ∀ q ∈ ffActions rows cols t m s, inGuard rows cols q :=
        fun q hq => (hnsfacts q hq).1
      have hcount : tCount t (paintAll rep m (ffActions rows cols t m s)) +
          (ffActions rows cols t m s).length = tCount t m :=
        tCount_paintAll (Ne.symm hne) _ m hShape hnod
          (fun q hq => ⟨(hnsfacts q hq).1, (hnsfacts q hq).2.1⟩)
      have hShape2 : Shape rows cols (paintAll rep m (ffActions rows cols t m s)) :=
        paintAll_shape rep _ m hShape
      have hpaint : ∀ p, inGuard rows cols p →
          pyGet2 (paintAll rep m (ffActions rows cols t m s)) p.1 p.2 =
            if p ∈ ffActions rows cols t m s then some rep else pyGet2 m p.1 p.2 :=
        pyGet2_paintAll rep _ m hShape hguards
      have hkeep : ∀ p, inGuard rows cols p → pyGet2 m p.1 p.2 = some rep →
          pyGet2 (paintAll rep m (ffActions rows cols t m s)) p.1 p.2 = some rep := by
        intro p hp hval
        rw [hpaint p hp]
        by_cases hm : p ∈ ffActions rows cols t m s
        · rw [if_pos hm]
        · rw [if_neg hm]; exact hval
      have hInv2 : FFInv rows cols t rep m0 start
          (paintAll rep m (ffActions rows cols t m s))
          ((ffActions rows cols t m s).reverse ++ rest) := by
        refine ⟨hShape2, ?_, ?_, ?_⟩
        · intro q hg hch
          by_cases hmem : q ∈ ffActions rows cols t m s
          · obtain ⟨_, _, hm0q, hRq⟩ := hnsfacts q hmem
            refine ⟨?_, hm0q, hRq⟩
            rw [hpaint q hg, if_pos hmem]
          · rw [hpaint q hg, if_neg hmem] at hch ⊢
            exact hI1 q hg hch
        · intro q hq
          rcases List.mem_append.mp hq with hq | hq
          · rw [List.mem_reverse] at hq
            obtain ⟨hg, _, hm0q, hRq⟩ := hnsfacts q hq
            refine ⟨hg, hm0q, ?_, hRq⟩
            rw [hpaint q hg, if_pos hq]
          · obtain ⟨hg, hm0q, hmq, hRq⟩ := hStk q (by simp [hq])
            exact ⟨hg, hm0q, hkeep q hg hmq, hRq⟩
        · intro q hg hm0q hmq2
          by_cases hmem : q ∈ ffActions rows cols t m s
          · exact Or.inl (List.mem_append.mpr (Or.inl (List.mem_reverse.mpr hmem)))
          · rw [hpaint q hg, if_neg hmem] at hmq2
            rcases hI3 q hg hm0q hmq2 with hqstk | hnbr
            · rcases List.mem_cons.mp hqstk with hqs | hqrest
              · subst hqs
                refine Or.inr ?_
                intro d hd hgq hm0qd
                rw [hpaint _ hgq]
                by_cases hmemd : (q.1 + d.1, q.2 + d.2) ∈ ffActions rows cols t m q
                · rw [if_pos hmemd]
                · rw [if_neg hmemd]
                  by_cases hch : pyGet2 m (q.1 + d.1) (q.2 + d.2) =
                      pyGet2 m0 (q.1 + d.1) (q.2 + d.2)
                  · exact absurd (ffActions_mem.mpr
                      ⟨d, hd, rfl, hgq, by rw [hch]; exact hm0qd⟩) hmemd
                  · exact (hI1 _ hgq hch).1
              · exact Or.inl (List.mem_append.mpr (Or.inr hqrest))
            · refine Or.inr ?_
              intro d hd hgq hm0qd
              exact hkeep _ hgq (hnbr d hd hgq hm0qd)
      have hfuel2 : 2 * tCount t (paintAll rep m (ffActions rows cols t m s)) +
          ((ffActions rows cols t m s).reverse ++ rest).length ≤ fuel := by
        rw [List.length_append, List.length_reverse]
        rw [List.length_cons] at hfuel
        omega
      obtain ⟨m2, hrun, hInvFinal, hmono⟩ := ih _ _ hInv2 hfuel2
      refine ⟨m2, hrun, hInvFinal, ?_⟩
      intro q hg hq
      exact hmono q hg (hkeep q hg hq)

theorem Reach.src_cell {α : Type} {rows cols : Nat} {t : α} {m : List (List α)}
    {p q : Coord} (h : Reach rows cols t m p q) :
    inGuard rows cols p ∧ pyGet2 m p.1 p.2 = some t := by
  induction h with
  | refl hg hc => exact ⟨hg, hc⟩
  | step q d _ _ _ _ ih => exact ih

theorem Reach.dst_cell {α : Type} {rows cols : Nat} {t : α} {m : List (List α)}
    {p q : Coord} (h : Reach rows cols t m p q) :
    inGuard rows cols q ∧ pyGet2 m q.1 q.2 = some t := by
  induction h with
  | refl hg hc => exact ⟨hg, hc⟩
  | step q d _ _ hg hc _ => exact ⟨hg, hc⟩

/-- Flood-fill correctness for `target_color ≠ replacement_color`: on a
rectangular grid with an in-bounds start, `flood_fill_dfs` terminates
(for any fuel above twice the grid size), every cell 4-connected-reachable
from the start through original-target cells ends up holding the
replacement colour, and every other in-bounds cell is unchanged. -/
theorem flood_fill_dfs_correct {α : Type} [DecidableEq α] (p : FloodFillProblem α)
    (hS : Shape (rowsOf p.matrix) (colsOf p.matrix) p.matrix)
    (hg : inGuard (rowsOf p.matrix) (colsOf p.matrix) p.start)
    (hne : p.target_color ≠ p.replacement_color) :
    ∃ m2, (∀ fuel, 2 * (rowsOf p.matrix * colsOf p.matrix) + 1 ≤ fuel →
        flood_fill_dfs p fuel = some (.ok m2)) ∧
      (∀ q, Reach (rowsOf p.matrix) (colsOf p.matrix) p.target_color p.matrix p.start q →
        pyGet2 m2 q.1 q.2 = some p.replacement_color) ∧
      (∀ q, inGuard (rowsOf p.matrix) (colsOf p.matrix) q →
        ¬ Reach (rowsOf p.matrix) (colsOf p.matrix) p.target_color p.matrix p.start q →
        pyGet2 m2 q.1 q.2 = pyGet2 p.matrix q.1 q.2) := by
  obtain ⟨v, hv⟩ := pyGet2_isSome hS hg
  by_cases hvt : v = p.target_color
  case neg =>
    refine ⟨p.matrix, ?_, ?_, ?_⟩
    · intro fuel _
      simp only [flood_fill_dfs, hv]
      rw [if_neg hvt]
    · intro q hR
      have := (Reach.src_cell hR).2
      rw [hv] at this
      exact absurd (Option.some.inj this) hvt
    · intro q _ _; rfl
  case pos =>
    subst hvt
    have hInv1 : FFInv (rowsOf p.matrix) (colsOf p.matrix) p.target_color p.replacement_color
        p.matrix p.start
        (pySet2 p.matrix p.start.1 p.start.2 p.replacement_color) [p.start] := by
      have hS1 := shape_pySet2 hS p.start.1 p.start.2 p.replacement_color
      have hself := pyGet2_pySet2_self hS hg p.replacement_color
      have hother : ∀ q, inGuard (rowsOf p.matrix) (colsOf p.matrix) q → q ≠ p.start →
          pyGet2 (pySet2 p.matrix p.start.1 p.start.2 p.replacement_color) q.1 q.2 =
            pyGet2 p.matrix q.1 q.2 :=
        fun q hq hqs => pyGet2_pySet2_ne hS hg hq hqs p.replacement_color
      refine ⟨hS1, ?_, ?_, ?_⟩
      · intro q hgq hch
        by_cases hqs : q = p.start
        · subst hqs
          exact ⟨hself, hv, Reach.refl _ hgq hv⟩
        · rw [hother q hgq hqs] at hch
          exact absurd rfl hch
      · intro q hq
        rcases List.mem_singleton.mp hq with rfl
        exact ⟨hg, hv, hself, Reach.refl _ hg hv⟩
      · intro q hgq hm0q hmq
        by_cases hqs : q = p.start
        · exact Or.inl (by simp [hqs])
        · rw [hother q hgq hqs] at hmq
          rw [hm0q] at hmq
          exact absurd (Option.some.inj hmq) hne
    have hB : tCount p.target_color
        (pySet2 p.matrix p.start.1 p.start.2 p.replacement_color) ≤
        rowsOf p.matrix * colsOf p.matrix :=
      tCount_le p.target_color _ (shape_pySet2 hS p.start.1 p.start.2 p.replacement_color)
    obtain ⟨m2, hrun, hInvF, hmono⟩ := floodLoop_ok hne p.matrix p.start
      (2 * (rowsOf p.matrix * colsOf p.matrix) + 1)
      (pySet2 p.matrix p.start.1 p.start.2 p.replacement_color) [p.start]
      hInv1 (by rw [List.length_singleton]; omega)
    obtain ⟨hSf, hI1f, _, hI3f⟩ := hInvF
    have hrunAll : ∀ fuel, 2 * (rowsOf p.matrix * colsOf p.matrix) + 1 ≤ fuel →
        flood_fill_dfs p fuel = some (.ok m2) := by
      intro fuel hfuel
      simp only [flood_fill_dfs, hv]
      rw [floodLoop_mono hrun hfuel]
      rfl
    have hstart2 : pyGet2 m2 p.start.1 p.start.2 = some p.replacement_color :=
      hmono p.start hg (pyGet2_pySet2_self hS hg p.replacement_color)
    refine ⟨m2, hrunAll, ?_, ?_⟩
    · intro q hR
      induction hR with
      | refl hgq hcq => exact hstart2
      | step u d hRu hd hgu hcu ih =>
        have hufacts := Reach.dst_cell hRu
        rcases hI3f u hufacts.1 hufacts.2 ih with habs | hclosed
        · cases habs
        · exact hclosed d hd hgu hcu
    · intro q hgq hnR
      by_cases hch : pyGet2 m2 q.1 q.2 = pyGet2 p.matrix q.1 q.2
      · exact hch
      · exact absurd (hI1f q hgq hch).2.2 hnR

theorem set_self_of_get {β : Type} :
    ∀ (l : List β) (k : Nat) (v : β), l.get? k = some v → l.set k v = l
  | [], _, _, h => by cases h
  | a :: l, 0, v, h => by
    have : a = v := Option.some.inj h
    rw [List.set_cons_zero, this]
  | a :: l, k + 1, v, h => by
    rw [List.set_cons_succ, set_self_of_get l k v h]

/-- Writing a cell the value it already holds leaves the grid unchanged. -/
theorem pySet2_noop {β : Type} {m : List (List β)} {r c : Int} {v : β}
    (h : pyGet2 m r c = some v) : pySet2 m r c v = m := by
  unfold pyGet2 pyGet at h
  unfold pySet2
  cases hidx : pyIdx m.length r with
  | none => rfl
  | some j =>
    simp only [hidx] at h
    cases hrow : m.get? j with
    | none => simp only [hrow] at h; exact Option.noConfusion h
    | some row =>
      simp only [hrow] at h
      cases hidx2 : pyIdx row.length c with
      | none => simp only [hidx2] at h; exact Option.noConfusion h
      | some k =>
        simp only [hidx2] at h
        simp only [hrow]
        have hrowset : pySet row c v = row := by
          unfold pySet
          simp only [hidx2]
          exact set_self_of_get row k v h
        rw [hrowset]
        exact set_self_of_get m j row hrow

theorem paintAll_noop {α : Type} {t : α} :
    ∀ (ns : List Coord) (m : List (List α)),
      (∀ q ∈ ns, pyGet2 m q.1 q.2 = some t) → paintAll t m ns = m
  | [], _, _ => rfl
  | a :: qs, m, h => by
    show paintAll t (pySet2 m a.1 a.2 t) qs = m
    rw [pySet2_noop (h a (by simp))]
    exact paintAll_noop qs m (fun q hq => h q (by simp [hq]))

theorem neg_mem_deltas4 : ∀ d ∈ deltas4, ((-d.1, -d.2) : Coord) ∈ deltas4 := by
  decide

/-- When the replacement colour equals the target colour, a stack whose
every entry is a guarded target cell with a guarded target 4-neighbour is
never exhausted: the loop runs out of any amount of fuel. -/
theorem floodLoop_diverges {α : Type} [DecidableEq α] {rows cols : Nat} {t : α}
    {m : List (List α)} :
    ∀ (fuel : Nat) (stack : List Coord), stack ≠ [] →
      (∀ q ∈ stack, inGuard rows cols q ∧ pyGet2 m q.1 q.2 = some t ∧
        ∃ d ∈ deltas4, inGuard rows cols (q.1 + d.1, q.2 + d.2) ∧
          pyGet2 m (q.1 + d.1) (q.2 + d.2) = some t) →
      floodLoop rows cols t t fuel m stack = none := by
  intro fuel
  induction fuel with
  | zero =>
    intro stack hne _
    cases stack with
    | nil => exact absurd rfl hne
    | cons s rest => rfl
  | succ fuel ih =>
    intro stack hne hstk
    cases stack with
    | nil => exact absurd rfl hne
    | cons s rest =>
      obtain ⟨hgs, hcs, d, hd, hgd, hcd⟩ := hstk s (by simp)
      have hmem : (s.1 + d.1, s.2 + d.2) ∈ ffActions rows cols t m s :=
        ffActions_mem.mpr ⟨d, hd, rfl, hgd, hcd⟩
      have hcells : ∀ q ∈ ffActions rows cols t m s, pyGet2 m q.1 q.2 = some t :=
        fun q hq => (ffActions_mem.mp hq).choose_spec.2.2.2
      have hpaint : paintAll t m (ffActions rows cols t m s) = m :=
        paintAll_noop _ m hcells
      show floodLoop rows cols t t fuel (paintAll t m (ffActions rows cols t m s))
        ((ffActions rows cols t m s).reverse ++ rest) = none
      rw [hpaint]
      refine ih _ ?_ ?_
      · intro habs
        rcases List.append_eq_nil.mp habs with ⟨h1, _⟩
        rw [List.reverse_eq_nil_iff] at h1
        rw [h1] at hmem
        cases hmem
      · intro q hq
        rcases List.mem_append.mp hq with hq | hq
        · rw [List.mem_reverse] at hq
          obtain ⟨dq, hdq, hqeq, hgq, hcq⟩ := ffActions_mem.mp hq
          refine ⟨hgq, hcq, (-dq.1, -dq.2), neg_mem_deltas4 dq hdq, ?_, ?_⟩
          · have e1 : q.1 + -dq.1 = s.1 := by rw [hqeq]; dsimp only; omega
            have e2 : q.2 + -dq.2 = s.2 := by rw [hqeq]; dsimp only; omega
            rw [e1, e2]
            exact hgs
          · have e1 : q.1 + -dq.1 = s.1 := by rw [hqeq]; dsimp only; omega
            have e2 : q.2 + -dq.2 = s.2 := by rw [hqeq]; dsimp only; omega
            rw [e1, e2]
            exact hcs
        · exact hstk q (by simp [hq])

/-- `flood_fill_dfs` with equal target and replacement colours: a no-op
when the start cell has no in-bounds target 4-neighbour, and a
non-terminating loop as soon as it has one. -/
theorem flood_fill_same_colors {α : Type} [DecidableEq α] (p : FloodFillProblem α)
    (hg : inGuard (rowsOf p.matrix) (colsOf p.matrix) p.start)
    (hcell : pyGet2 p.matrix p.start.1 p.start.2 = some p.target_color)
    (heq : p.replacement_color = p.target_color) :
    (ffActions (rowsOf p.matrix) (colsOf p.matrix) p.target_color p.matrix p.start = [] →
      ∀ fuel, 1 ≤ fuel → flood_fill_dfs p fuel = some (.ok p.matrix)) ∧
    (ffActions (rowsOf p.matrix) (colsOf p.matrix) p.target_color p.matrix p.start ≠ [] →
      ∀ fuel, flood_fill_dfs p fuel = none) := by
  have hpaint : pySet2 p.matrix p.start.1 p.start.2 p.replacement_color = p.matrix := by
    rw [heq]
    exact pySet2_noop hcell
  constructor
  · intro hact fuel hfuel
    cases fuel with
    | zero => omega
    | succ f =>
      simp only [flood_fill_dfs, hcell]
      rw [hpaint]
      have hstep : floodLoop (rowsOf p.matrix) (colsOf p.matrix) p.target_color
          p.replacement_color (f + 1) p.matrix [p.start] =
          floodLoop (rowsOf p.matrix) (colsOf p.matrix) p.target_color
            p.replacement_color f
            (paintAll p.replacement_color p.matrix
              (ffActions (rowsOf p.matrix) (colsOf p.matrix) p.target_color p.matrix p.start))
            ((ffActions (rowsOf p.matrix) (colsOf p.matrix) p.target_color
              p.matrix p.start).reverse ++ []) := rfl
      rw [hstep, hact]
      show (floodLoop (rowsOf p.matrix) (colsOf p.matrix) p.target_color
        p.replacement_color f p.matrix []).map PyResult.ok = some (.ok p.matrix)
      rw [floodLoop_nil p.matrix f]
      rfl
  · intro hact fuel
    simp only [flood_fill_dfs, hcell]
    rw [hpaint, heq]
    obtain ⟨q0, hq0⟩ := List.exists_mem_of_ne_nil _ hact
    obtain ⟨d, hd, hqeq, hgq, hcq⟩ := ffActions_mem.mp hq0
    have hdiv : floodLoop (rowsOf p.matrix) (colsOf p.matrix) p.target_color
        p.target_color fuel p.matrix [p.start] = none := by
      refine floodLoop_diverges fuel [p.start] (by simp) ?_
      intro q hq
      rcases List.mem_singleton.mp hq with rfl
      have e1 : q0.1 = p.start.1 + d.1 := by rw [hqeq]
      have e2 : q0.2 = p.start.2 + d.2 := by rw [hqeq]
      refine ⟨hg, hcell, d, hd, hqeq ▸ hgq, ?_⟩
      rw [← e1, ← e2]
      exact hcq
    rw [hdiv]
    rfl

/-! ## Longest-path support lemmas -/

theorem lcpChildren_mem {p : LongestConsecutivePathProblem} {s : Coord}
    {curr : Nat} {q : Coord} :
    q ∈ lcpChildren p s curr ↔
      ∃ d ∈ deltas8, q = (s.1 + d.1, s.2 + d.2) ∧
        inGuard (rowsOf p.matrix) (colsOf p.matrix) q ∧
        pyGet2 p.matrix q.1 q.2 = some (curr + 1) := by
  unfold lcpChildren
  rw [List.mem_filterMap]
  constructor
  · rintro ⟨d, hd, hq⟩
    dsimp only at hq
    by_cases hg : inGuard (rowsOf p.matrix) (colsOf p.matrix) (s.1 + d.1, s.2 + d.2)
    · rw [if_pos hg] at hq
      by_cases hc : pyGet2 p.matrix (s.1 + d.1) (s.2 + d.2) = some (curr + 1)
      · rw [if_pos hc] at hq
        cases hq
        exact ⟨d, hd, rfl, hg, hc⟩
      · rw [if_neg hc] at hq; cases hq
    · rw [if_neg hg] at hq; cases hq
  · rintro ⟨d, hd, rfl, hg, hc⟩
    refine ⟨d, hd, ?_⟩
    dsimp only
    rw [if_pos hg, if_pos hc]

/-- Total number of cells of the grid (sum of the row lengths). -/
def gridSize {β : Type} : List (List β) → Nat
  | [] => 0
  | row :: rest => row.length + gridSize rest

theorem countGEr_le_length (v : Nat) :
    ∀ l : List Nat, countGEr v l ≤ l.length
  | [] => Nat.le_refl 0
  | a :: l => by
    show (if v ≤ a then 1 else 0) + countGEr v l ≤ l.length + 1
    have := countGEr_le_length v l
    by_cases h : v ≤ a <;> simp [h] <;> omega

theorem countGE_le_gridSize (v : Nat) :
    ∀ m : List (List Nat), countGE v m ≤ gridSize m
  | [] => Nat.le_refl 0
  | row :: rest => by
    show countGEr v row + countGE v rest ≤ row.length + gridSize rest
    have h1 := countGEr_le_length v row
    have h2 := countGE_le_gridSize v rest
    omega

theorem countGEr_mono_succ (v : Nat) :
    ∀ l : List Nat, countGEr (v + 1) l ≤ countGEr v l
  | [] => Nat.le_refl 0
  | a :: l => by
    show (if v + 1 ≤ a then 1 else 0) + countGEr (v + 1) l ≤
      (if v ≤ a then 1 else 0) + countGEr v l
    have := countGEr_mono_succ v l
    by_cases h1 : v + 1 ≤ a
    · rw [if_pos h1, if_pos (by omega)]; omega
    · rw [if_neg h1]
      by_cases h2 : v ≤ a <;> simp [h2] <;> omega

theorem countGEr_succ_lt {v : Nat} :
    ∀ (l : List Nat) (k : Nat), l.get? k = some v →
      countGEr (v + 1) l < countGEr v l
  | [], _, h => by cases h
  | a :: l, 0, h => by
    have ha : a = v := Option.some.inj h
    subst ha
    show (if a + 1 ≤ a then 1 else 0) + countGEr (a + 1) l <
      (if a ≤ a then 1 else 0) + countGEr a l
    rw [if_neg (by omega), if_pos (by omega)]
    have := countGEr_mono_succ a l
    omega
  | a :: l, k + 1, h => by
    show (if v + 1 ≤ a then 1 else 0) + countGEr (v + 1) l <
      (if v ≤ a then 1 else 0) + countGEr v l
    have hlt := countGEr_succ_lt l k h
    by_cases h1 : v + 1 ≤ a
    · rw [if_pos h1, if_pos (by omega)]; omega
    · rw [if_neg h1]
      by_cases h2 : v ≤ a <;> simp [h2] <;> omega

theorem countGE_mono_succ (v : Nat) :
    ∀ m : List (List Nat), countGE (v + 1) m ≤ countGE v m
  | [] => Nat.le_refl 0
  | row :: rest => by
    show countGEr (v + 1) row + countGE (v + 1) rest ≤
      countGEr v row + countGE v rest
    have h1 := countGEr_mono_succ v row
    have h2 := countGE_mono_succ v rest
    omega

theorem countGE_succ_lt {v : Nat} :
    ∀ (m : List (List Nat)) (j k : Nat) (row : List Nat),
      m.get? j = some row → row.get? k = some v →
      countGE (v + 1) m < countGE v m
  | [], _, _, _, h, _ => by cases h
  | r0 :: rest, 0, k, row, hj, hk => by
    have : r0 = row := Option.some.inj hj
    subst this
    show countGEr (v + 1) r0 + countGE (v + 1) rest <
      countGEr v r0 + countGE v rest
    have h1 := countGEr_succ_lt r0 k hk
    have h2 := countGE_mono_succ v rest
    omega
  | r0 :: rest, j + 1, k, row, hj, hk => by
    show countGEr (v + 1) r0 + countGE (v + 1) rest <
      countGEr v r0 + countGE v rest
    have h1 := countGEr_mono_succ v r0
    have h2 := countGE_succ_lt rest j k row hj hk
    omega

theorem countGEr_pos {v w : Nat} (hvw : v ≤ w) :
    ∀ (l : List Nat) (k : Nat), l.get? k = some w → 1 ≤ countGEr v l
  | [], _, h => by cases h
  | a :: l, 0, h => by
    have : a = w := Option.some.inj h
    subst this
    show 1 ≤ (if v ≤ a then 1 else 0) + countGEr v l
    rw [if_pos hvw]
    omega
  | a :: l, k + 1, h => by
    show 1 ≤ (if v ≤ a then 1 else 0) + countGEr v l
    have := countGEr_pos hvw l k h
    omega

theorem countGE_pos {v : Nat} :
    ∀ (m : List (List Nat)) (j k : Nat) (row : List Nat),
      m.get? j = some row → row.get? k = some v → 1 ≤ countGE v m
  | [], _, _, _, h, _ => by cases h
  | r0 :: rest, 0, k, row, hj, hk => by
    have : r0 = row := Option.some.inj hj
    subst this
    show 1 ≤ countGEr v r0 + countGE v rest
    have := countGEr_pos (Nat.le_refl v) r0 k hk
    omega
  | r0 :: rest, j + 1, k, row, hj, hk => by
    show 1 ≤ countGEr v r0 + countGE v rest
    have := countGE_pos rest j k row hj hk
    omega

theorem dfsFoldWith_no_err {f : Coord → Option (PyResult Nat)} :
    ∀ (cs : List Coord), (∀ x ∈ cs, f x ≠ some .indexError) →
      ∀ best, dfsFoldWith f cs best ≠ some .indexError
  | [], _, best => by
    show some (PyResult.ok best) ≠ some .indexError
    simp
  | q :: rest, h, best => by
    show (match f q with
      | none => none
      | some .indexError => some PyResult.indexError
      | some (.ok l) => dfsFoldWith f rest (max best (1 + l))) ≠ some .indexError
    cases hfq : f q with
    | none => simp
    | some r =>
      cases r with
      | indexError => exact absurd hfq (h q (by simp))
      | ok l =>
        exact dfsFoldWith_no_err rest (fun x hx => h x (by simp [hx])) (max best (1 + l))

theorem dfsFoldWith_ok {f : Coord → Option (PyResult Nat)} :
    ∀ (cs : List Coord), (∀ x ∈ cs, ∃ k, f x = some (.ok k)) →
      ∀ best, ∃ k, dfsFoldWith f cs best = some (.ok k)
  | [], _, best => ⟨best, rfl⟩
  | q :: rest, h, best => by
    obtain ⟨l, hl⟩ := h q (by simp)
    show ∃ k, (match f q with
      | none => none
      | some .indexError => some PyResult.indexError
      | some (.ok l) => dfsFoldWith f rest (max best (1 + l))) = some (.ok k)
    rw [hl]
    exact dfsFoldWith_ok rest (fun x hx => h x (by simp [hx])) (max best (1 + l))

theorem dfsFoldWith_ge {f : Coord → Option (PyResult Nat)} :
    ∀ (cs : List Coord) (best k : Nat),
      dfsFoldWith f cs best = some (.ok k) → best ≤ k
  | [], best, k, h => by
    have : PyResult.ok best = PyResult.ok k := Option.some.inj h
    cases this
    exact Nat.le_refl _
  | q :: rest, best, k, h => by
    revert h
    show (match f q with
      | none => none
      | some .indexError => some PyResult.indexError
      | some (.ok l) => dfsFoldWith f rest (max best (1 + l))) = some (.ok k) → best ≤ k
    cases hfq : f q with
    | none => intro h; cases h
    | some r =>
      cases r with
      | indexError => intro h; cases Option.some.inj h
      | ok l =>
        intro h
        have := dfsFoldWith_ge rest (max best (1 + l)) k h
        omega

/-- Any normal result of `dfs_longest` is at least 1 (the current cell). -/
theorem dfs_longest_ge_one {p : LongestConsecutivePathProblem} :
    ∀ {fuel : Nat} {s : Coord} {l : Nat},
      dfs_longest p fuel s = some (.ok l) → 1 ≤ l := by
  intro fuel s l h
  cases fuel with
  | zero => cases h
  | succ fuel =>
    revert h
    show (match lcpActions p s with
      | none => some PyResult.indexError
      | some children => dfsFoldWith (dfs_longest p fuel) children 1) =
        some (.ok l) → 1 ≤ l
    cases hact : lcpActions p s with
    | none => intro h; cases Option.some.inj h
    | some children => exact fun h => dfsFoldWith_ge children 1 l h

/-- `dfs_longest` never raises an `IndexError` when started on an actual
cell (non-negative in-range coordinates): all neighbour reads inside the
descent are guarded. -/
theorem dfs_longest_no_err (p : LongestConsecutivePathProblem) :
    ∀ (fuel : Nat) (s : Coord), 0 ≤ s.1 → 0 ≤ s.2 →
      (∃ v, pyGet2 p.matrix s.1 s.2 = some v) →
      dfs_longest p fuel s ≠ some .indexError := by
  intro fuel
  induction fuel with
  | zero =>
    intro s _ _ _
    show none ≠ some PyResult.indexError
    simp
  | succ fuel ih =>
    intro s h1 h2 ⟨v, hv⟩
    show (match lcpActions p s with
      | none => some PyResult.indexError
      | some children => dfsFoldWith (dfs_longest p fuel) children 1) ≠
        some .indexError
    have hact : lcpActions p s = some (lcpChildren p s v) := by
      unfold lcpActions
      rw [hv]
    rw [hact]
    refine dfsFoldWith_no_err _ ?_ 1
    intro x hx
    obtain ⟨d, hd, hxeq, hg, hc⟩ := lcpChildren_mem.mp hx
    exact ih x hg.1 hg.2.2.1 ⟨v + 1, hc⟩

/-- Termination core for `dfs_longest`: fuel equal to the number of cells
holding a value at least the current cell's value always suffices, since
each descent step strictly shrinks that count. -/
theorem dfs_longest_ok (p : LongestConsecutivePathProblem) :
    ∀ (fuel : Nat) (s : Coord) (v : Nat), 0 ≤ s.1 → 0 ≤ s.2 →
      pyGet2 p.matrix s.1 s.2 = some v →
      countGE v p.matrix ≤ fuel →
      ∃ k, dfs_longest p fuel s = some (.ok k) := by
  intro fuel
  induction fuel with
  | zero =>
    intro s v h1 h2 hv hcount
    obtain ⟨row, hrow, hcell⟩ := pyGet2_nonneg_elim h1 h2 hv
    have := countGE_pos p.matrix s.1.toNat s.2.toNat row hrow hcell
    omega
  | succ fuel ih =>
    intro s v h1 h2 hv hcount
    have hact : lcpActions p s = some (lcpChildren p s v) := by
      unfold lcpActions
      rw [hv]
    show ∃ k, (match lcpActions p s with
      | none => some PyResult.indexError
      | some children => dfsFoldWith (dfs_longest p fuel) children 1) =
        some (.ok k)
    rw [hact]
    refine dfsFoldWith_ok _ ?_ 1
    intro x hx
    obtain ⟨d, hd, hxeq, hg, hc⟩ := lcpChildren_mem.mp hx
    obtain ⟨row, hrow, hcell⟩ := pyGet2_nonneg_elim h1 h2 hv
    have hlt : countGE (v + 1) p.matrix < countGE v p.matrix :=
      countGE_succ_lt p.matrix s.1.toNat s.2.toNat row hrow hcell
    exact ih x (v + 1) hg.1 hg.2.2.1 hc (by omega)

theorem cellsList_mem {rows cols : Nat} {rc : Coord} :
    rc ∈ cellsList rows cols ↔
      ∃ r, r < rows ∧ ∃ c, c < cols ∧ rc = (Int.ofNat r, Int.ofNat c) := by
  unfold cellsList
  rw [List.mem_flatMap]
  constructor
  · rintro ⟨r, hr, hmem⟩
    rw [List.mem_map] at hmem
    obtain ⟨c, hc, heq⟩ := hmem
    exact ⟨r, List.mem_range.mp hr, c, List.mem_range.mp hc, heq.symm⟩
  · rintro ⟨r, hr, c, hc, rfl⟩
    refine ⟨r, List.mem_range.mpr hr, ?_⟩
    rw [List.mem_map]
    exact ⟨c, List.mem_range.mpr hc, rfl⟩

theorem flcpFold_cons (p : LongestConsecutivePathProblem) (fuel : Nat)
    (rc : Coord) (rest : List Coord) (best : Nat) :
    flcpFold p fuel (rc :: rest) best =
      if pyGet2 p.matrix rc.1 rc.2 = some p.start_char then
        match dfs_longest p fuel rc with
        | none => none
        | some .indexError => some PyResult.indexError
        | some (.ok l) => flcpFold p fuel rest (if l > best then l else best)
      else flcpFold p fuel rest best := rfl

theorem flcpFold_no_match (p : LongestConsecutivePathProblem) (fuel : Nat) :
    ∀ (cells : List Coord) (best : Nat),
      (∀ rc ∈ cells, pyGet2 p.matrix rc.1 rc.2 ≠ some p.start_char) →
      flcpFold p fuel cells best = some (.ok best)
  | [], _, _ => rfl
  | rc :: rest, best, h => by
    rw [flcpFold_cons, if_neg (h rc (by simp))]
    exact flcpFold_no_match p fuel rest best (fun x hx => h x (by simp [hx]))

theorem flcpFold_ok (p : LongestConsecutivePathProblem) (fuel : Nat)
    (hfuel : gridSize p.matrix < fuel) :
    ∀ (cells : List Coord) (best : Nat),
      (∀ rc ∈ cells, 0 ≤ rc.1 ∧ 0 ≤ rc.2) →
      ∃ k, flcpFold p fuel cells best = some (.ok k) ∧ best ≤ k ∧
        (∀ rc ∈ cells, pyGet2 p.matrix rc.1 rc.2 = some p.start_char → 1 ≤ k)
  | [], best, _ =>
    ⟨best, rfl, Nat.le_refl _, fun rc h => absurd h (List.not_mem_nil rc)⟩
  | rc :: rest, best, hnn => by
    by_cases hm : pyGet2 p.matrix rc.1 rc.2 = some p.start_char
    · obtain ⟨hnn1, hnn2⟩ := hnn rc (by simp)
      have hcfuel : countGE p.start_char p.matrix ≤ fuel := by
        have := countGE_le_gridSize p.start_char p.matrix
        omega
      obtain ⟨l, hl⟩ := dfs_longest_ok p fuel rc p.start_char hnn1 hnn2 hm hcfuel
      have hge1 : 1 ≤ l := dfs_longest_ge_one hl
      obtain ⟨k, hk, hbk, hall⟩ := flcpFold_ok p fuel hfuel rest
        (if l > best then l else best) (fun x hx => hnn x (by simp [hx]))
      have hb2 : best ≤ (if l > best then l else best) := by
        by_cases h : l > best
        · rw [if_pos h]; omega
        · rw [if_neg h]
      have hb1 : 1 ≤ (if l > best then l else best) := by
        by_cases h : l > best
        · rw [if_pos h]; omega
        · rw [if_neg h]; omega
      refine ⟨k, ?_, by omega, ?_⟩
      · rw [flcpFold_cons, if_pos hm, hl]
        exact hk
      · intro x hx hmx
        omega
    · obtain ⟨k, hk, hbk, hall⟩ := flcpFold_ok p fuel hfuel rest best
        (fun x hx => hnn x (by simp [hx]))
      refine ⟨k, ?_, hbk, ?_⟩
      · rw [flcpFold_cons, if_neg hm]
        exact hk
      · intro x hx hmx
        rcases List.mem_cons.mp hx with rfl | hx2
        · exact absurd hmx hm
        · exact hall x hx2 hmx

/-- `start_char` occurs in a cell of the grid (as a plain statement about
the nested lists). -/
def occursIn {β : Type} (m : List (List β)) (ch : β) : Prop :=
  ∃ j k row, m.get? j = some row ∧ row.get? k = some ch

theorem occursIn_iff_occursB {m : List (List Nat)} {ch : Nat}
    (hS : Shape (rowsOf m) (colsOf m) m) :
    occursIn m ch ↔ occursB m ch = true := by
  constructor
  · rintro ⟨j, k, row, hrow, hcell⟩
    have hlen : m.length = rowsOf m := hS.1
    have hj : j < m.length := by
      have hne2 : m.get? j ≠ none := by rw [hrow]; simp
      rw [Ne, List.get?_eq_none] at hne2
      omega
    have hk : k < row.length := by
      have hne2 : row.get? k ≠ none := by rw [hcell]; simp
      rw [Ne, List.get?_eq_none] at hne2
      omega
    have hkc : k < colsOf m := by
      have hmem : row ∈ m := List.get?_mem hrow
      rw [← hS.2 row hmem]
      exact hk
    have hguard : inGuard (rowsOf m) (colsOf m) (Int.ofNat j, Int.ofNat k) := by
      refine ⟨?_, ?_, ?_, ?_⟩
      · show (0 : Int) ≤ (j : Int)
        omega
      · show (j : Int) < ((rowsOf m : Nat) : Int)
        omega
      · show (0 : Int) ≤ (k : Int)
        omega
      · show (k : Int) < ((colsOf m : Nat) : Int)
        omega
    have hcellI : pyGet2 m (j : Int) (k : Int) = some ch := by
      unfold pyGet2
      rw [pyGet_of_lt (show (0 : Int) ≤ (j : Int) by omega)
        (show (j : Int) < ((m.length : Nat) : Int) by omega)]
      have e1 : ((j : Int)).toNat = j := rfl
      rw [e1, hrow]
      show pyGet row (k : Int) = some ch
      rw [pyGet_of_lt (show (0 : Int) ≤ (k : Int) by omega)
        (show (k : Int) < ((row.length : Nat) : Int) by omega)]
      have e2 : ((k : Int)).toNat = k := rfl
      rw [e2]
      exact hcell
    unfold occursB
    rw [List.any_eq_true]
    refine ⟨(Int.ofNat j, Int.ofNat k), ?_, ?_⟩
    · exact cellsList_mem.mpr ⟨j, by omega, k, hkc, rfl⟩
    · exact decide_eq_true hcellI
  · intro h
    unfold occursB at h
    rw [List.any_eq_true] at h
    obtain ⟨rc, hmem, hdec⟩ := h
    have hcell : pyGet2 m rc.1 rc.2 = some ch := of_decide_eq_true hdec
    obtain ⟨r, hr, c, hc, rfl⟩ := cellsList_mem.mp hmem
    obtain ⟨row, hrow, hcl⟩ := pyGet2_nonneg_elim (by simp) (by simp) hcell
    exact ⟨(Int.ofNat r).toNat, (Int.ofNat c).toNat, row, hrow, hcl⟩

/-- `find_longest_consecutive_path` returns a length of at least 1 when
`start_char` occurs in the grid (given enough fuel) and exactly 0 when it
does not. -/
theorem find_longest_spec (p : LongestConsecutivePathProblem) :
    (occursB p.matrix p.start_char = true →
      ∀ fuel, gridSize p.matrix < fuel →
        ∃ k, find_longest_consecutive_path p fuel = some (.ok k) ∧ 1 ≤ k) ∧
    (occursB p.matrix p.start_char = false →
      ∀ fuel, find_longest_consecutive_path p fuel = some (.ok 0)) := by
  constructor
  · intro hocc fuel hfuel
    unfold occursB at hocc
    rw [List.any_eq_true] at hocc
    obtain ⟨rc0, hmem0, hdec0⟩ := hocc
    have hmatch0 : pyGet2 p.matrix rc0.1 rc0.2 = some p.start_char :=
      of_decide_eq_true hdec0
    have hnn : ∀ rc ∈ cellsList (rowsOf p.matrix) (colsOf p.matrix),
        0 ≤ rc.1 ∧ 0 ≤ rc.2 := by
      intro rc hrc
      obtain ⟨r, _, c, _, rfl⟩ := cellsList_mem.mp hrc
      exact ⟨by simp, by simp⟩
    obtain ⟨k, hk, _, hall⟩ := flcpFold_ok p fuel hfuel
      (cellsList (rowsOf p.matrix) (colsOf p.matrix)) 0 hnn
    exact ⟨k, hk, hall rc0 hmem0 hmatch0⟩
  · intro hocc fuel
    unfold occursB at hocc
    rw [List.any_eq_false] at hocc
    refine flcpFold_no_match p fuel _ 0 ?_
    intro rc hrc hcell
    exact hocc rc hrc (by rw [decide_eq_true_eq]; exact hcell)

/-! ## Word-search support lemmas -/

theorem wsLoop_cons (f : Int → Int → List Coord → Bool × List Coord)
    (d : Coord) (ds : List Coord) (r c : Int) (visited : List Coord) :
    wsLoop f (d :: ds) r c visited =
      match f (r + d.1) (c + d.2) visited with
      | (true, v1) => (true, v1)
      | (false, v1) => wsLoop f ds r c v1 := rfl

theorem wsDfs_cons (board : List (List Char)) (rows cols : Nat) (ch : Char)
    (rest : List Char) (r c : Int) (visited : List Coord) :
    wsDfs board rows cols (ch :: rest) r c visited =
      if ¬ inGuard rows cols (r, c) then (false, visited)
      else if pyGet2 board r c ≠ some ch then (false, visited)
      else if (r, c) ∈ visited then (false, visited)
      else wsLoop (wsDfs board rows cols rest) deltas8 r c ((r, c) :: visited) := rfl

/-- What one full `dfs` call guarantees about the visited set: on failure
the set is exactly restored; on success the final set is the committed
path (one fresh, guarded, duplicate-free cell per matched character) on
top of the entry set. -/
def WsSpec (rows cols : Nat) (restLen : Nat) (w : List Coord)
    (res : Bool × List Coord) : Prop :=
  (res.1 = false → res.2 = w) ∧
  (res.1 = true → ∃ path, res.2 = path ++ w ∧ path.length = restLen ∧
    path.Nodup ∧ (∀ q ∈ path, q ∉ w) ∧ (∀ q ∈ path, inGuard rows cols q))

theorem wsLoop_spec {board : List (List Char)} {rows cols : Nat}
    {rest : List Char}
    (hf : ∀ (r c : Int) (w : List Coord),
      WsSpec rows cols rest.length w (wsDfs board rows cols rest r c w)) :
    ∀ (ds : List Coord) (r c : Int) (w : List Coord),
      ((wsLoop (wsDfs board rows cols rest) ds r c w).1 = false →
        (wsLoop (wsDfs board rows cols rest) ds r c w).2 = w.erase (r, c)) ∧
      ((wsLoop (wsDfs board rows cols rest) ds r c w).1 = true →
        ∃ path, (wsLoop (wsDfs board rows cols rest) ds r c w).2 = path ++ w ∧
          path.length = rest.length ∧ path.Nodup ∧
          (∀ q ∈ path, q ∉ w) ∧ (∀ q ∈ path, inGuard rows cols q))
  | [], r, c, w => by
    constructor
    · intro _; rfl
    · intro h; cases h
  | d :: ds, r, c, w => by
    rcases hres : wsDfs board rows cols rest (r + d.1) (c + d.2) w with ⟨b, v1⟩
    cases b with
    | true =>
      have hstep : wsLoop (wsDfs board rows cols rest) (d :: ds) r c w = (true, v1) := by
        rw [wsLoop_cons, hres]
      rw [hstep]
      constructor
      · intro h; cases h
      · intro _
        have hspec := (hf (r + d.1) (c + d.2) w).2 (by rw [hres])
        rw [hres] at hspec
        exact hspec
    | false =>
      have hv1 : v1 = w := by
        have hspec := (hf (r + d.1) (c + d.2) w).1 (by rw [hres])
        rw [hres] at hspec
        exact hspec
      have hstep : wsLoop (wsDfs board rows cols rest) (d :: ds) r c w =
          wsLoop (wsDfs board rows cols rest) ds r c w := by
        rw [wsLoop_cons, hres, hv1]
      rw [hstep]
      exact wsLoop_spec hf ds r c w

theorem wsDfs_spec (board : List (List Char)) (rows cols : Nat) :
    ∀ (rest : List Char) (r c : Int) (w : List Coord),
      WsSpec rows cols rest.length w (wsDfs board rows cols rest r c w) := by
  intro rest
  induction rest with
  | nil =>
    intro r c w
    constructor
    · intro h; cases h
    · intro _
      exact ⟨[], rfl, rfl, List.nodup_nil, by simp, by simp⟩
  | cons ch rest ih =>
    intro r c w
    rw [wsDfs_cons]
    by_cases hg : inGuard rows cols (r, c)
    case neg =>
      rw [if_pos (by exact hg)]
      exact ⟨fun _ => rfl, fun h => absurd h (by simp)⟩
    case pos =>
      rw [if_neg (by simp [hg])]
      by_cases hc : pyGet2 board r c = some ch
      case neg =>
        rw [if_pos (by simp [hc])]
        exact ⟨fun _ => rfl, fun h => absurd h (by simp)⟩
      case pos =>
        rw [if_neg (by simp [hc])]
        by_cases hv : (r, c) ∈ w
        case pos =>
          rw [if_pos hv]
          exact ⟨fun _ => rfl, fun h => absurd h (by simp)⟩
        case neg =>
          rw [if_neg hv]
          have hloop := wsLoop_spec ih deltas8 r c ((r, c) :: w)
          rcases hres : wsLoop (wsDfs board rows cols rest) deltas8 r c ((r, c) :: w)
            with ⟨b, v1⟩
          rw [hres] at hloop
          cases b with
          | false =>
            refine ⟨fun _ => ?_, fun h => absurd h (by simp)⟩
            have := hloop.1 rfl
            dsimp only at this
            rw [this, List.erase_cons_head]
          | true =>
            refine ⟨fun h => absurd h (by simp), fun _ => ?_⟩
            obtain ⟨path, hpath, hlen, hnd, hdisj, hguards⟩ := hloop.2 rfl
            refine ⟨path ++ [(r, c)], ?_, ?_, ?_, ?_, ?_⟩
            · dsimp only at hpath ⊢
              rw [hpath, List.append_assoc, List.singleton_append]
            · rw [List.length_append, hlen, List.length_singleton, List.length_cons]
            · rw [List.nodup_append]
              refine ⟨hnd, by simp, ?_⟩
              intro a ha hb
              rw [List.mem_singleton] at hb
              exact hdisj a ha (by rw [hb]; simp)
            · intro q hq
              rcases List.mem_append.mp hq with hq | hq
              · intro hqw
                exact hdisj q hq (by simp [hqw])
              · rw [List.mem_singleton] at hq
                subst hq
                exact hv
            · intro q hq
              rcases List.mem_append.mp hq with hq | hq
              · exact hguards q hq
              · rw [List.mem_singleton] at hq
                subst hq
                exact hg

/-- A duplicate-free list of guarded coordinates has at most `rows * cols`
entries (the pigeonhole core of the long-word argument). -/
theorem nodup_guard_length {rows cols : Nat} :
    ∀ (l : List Coord), l.Nodup → (∀ q ∈ l, inGuard rows cols q) →
      l.length ≤ rows * cols := by
  intro l hnd hg
  have hmap : (l.map (fun q => q.1.toNat * cols + q.2.toNat)).Nodup := by
    refine hnd.map_on ?_
    intro x hx y hy hxy
    obtain ⟨hx1, hx2, hx3, hx4⟩ := hg x hx
    obtain ⟨hy1, hy2, hy3, hy4⟩ := hg y hy
    have hxc : x.2.toNat < cols := by omega
    have hyc : y.2.toNat < cols := by omega
    have hmod : (x.1.toNat * cols + x.2.toNat) % cols =
        (y.1.toNat * cols + y.2.toNat) % cols := by rw [hxy]
    rw [Nat.mul_add_mod', Nat.mul_add_mod'] at hmod
    rw [Nat.mod_eq_of_lt hxc, Nat.mod_eq_of_lt hyc] at hmod
    have hrow : x.1.toNat = y.1.toNat := by
      have hcols : 0 < cols := by omega
      have := hxy
      rw [hmod] at this
      have hmul : x.1.toNat * cols = y.1.toNat * cols := by omega
      exact Nat.eq_of_mul_eq_mul_right hcols hmul
    exact Prod.ext (by omega) (by omega)
  have hrange : ∀ x ∈ l.map (fun q => q.1.toNat * cols + q.2.toNat),
      x ∈ Finset.range (rows * cols) := by
    intro x hx
    rw [List.mem_map] at hx
    obtain ⟨q, hq, rfl⟩ := hx
    obtain ⟨h1, h2, h3, h4⟩ := hg q hq
    rw [Finset.mem_range]
    have hq1 : q.1.toNat < rows := by omega
    have hq2 : q.2.toNat < cols := by omega
    calc q.1.toNat * cols + q.2.toNat < q.1.toNat * cols + cols := by omega
    _ = (q.1.toNat + 1) * cols := by ring
    _ ≤ rows * cols := Nat.mul_le_mul_right cols (by omega)
  have hsub : (l.map (fun q => q.1.toNat * cols + q.2.toNat)).toFinset ⊆
      Finset.range (rows * cols) :=
    fun x hx => hrange x (List.mem_toFinset.mp hx)
  have hcard := Finset.card_le_card hsub
  rw [List.toFinset_card_of_nodup hmap, Finset.card_range, List.length_map] at hcard
  exact hcard

/-- A word strictly longer than the number of grid cells cannot be traced:
`can_form_word_dfs` answers `False`. -/
theorem can_form_long_word (board : List (List Char)) (word : List Char)
    (h : rowsOf board * colsOf board < word.length) :
    can_form_word_dfs board word = .ok false := by
  cases word with
  | nil => rw [List.length_nil] at h; omega
  | cons w0 rest =>
    show PyResult.ok ((cellsList (rowsOf board) (colsOf board)).any (fun rc =>
      decide (pyGet2 board rc.1 rc.2 = some w0) &&
      (wsDfs board (rowsOf board) (colsOf board) (w0 :: rest) rc.1 rc.2 []).1)) =
      .ok false
    have hany : (cellsList (rowsOf board) (colsOf board)).any (fun rc =>
        decide (pyGet2 board rc.1 rc.2 = some w0) &&
        (wsDfs board (rowsOf board) (colsOf board) (w0 :: rest) rc.1 rc.2 []).1) = false := by
      rw [List.any_eq_false]
      intro rc _
      intro hand
      rw [Bool.and_eq_true] at hand
      obtain ⟨_, hdfs⟩ := hand
      obtain ⟨path, _, hlen, hnd, _, hguards⟩ :=
        (wsDfs_spec board (rowsOf board) (colsOf board) (w0 :: rest) rc.1 rc.2 []).2 hdfs
      have := nodup_guard_length path hnd hguards
      rw [hlen] at this
      omega
    rw [hany]

/-- Every word in the accumulated result of the dictionary loop either was
already accumulated or is traceable. -/
theorem fawGo_sound (board : List (List Char)) :
    ∀ (ws acc res : List (List Char)), fawGo board ws acc = .ok res →
      ∀ w ∈ res, w ∈ acc ∨ can_form_word_dfs board w = .ok true
  | [], acc, res, h, w, hw => by
    have : acc = res := by
      have h2 : PyResult.ok acc = PyResult.ok res := h
      cases h2
      rfl
    exact Or.inl (this ▸ hw)
  | w0 :: ws, acc, res, h, w, hw => by
    revert h
    show (match can_form_word_dfs board w0 with
      | .indexError => PyResult.indexError
      | .ok true => fawGo board ws (acc ++ [w0])
      | .ok false => fawGo board ws acc) = .ok res → _
    cases hc : can_form_word_dfs board w0 with
    | indexError => intro h; cases h
    | ok b =>
      cases b with
      | true =>
        intro h
        rcases fawGo_sound board ws (acc ++ [w0]) res h w hw with hmem | hok
        · rcases List.mem_append.mp hmem with hmem | hmem
          · exact Or.inl hmem
          · rw [List.mem_singleton] at hmem
            subst hmem
            exact Or.inr hc
        · exact Or.inr hok
      | false =>
        intro h
        exact fawGo_sound board ws acc res h w hw

/-- As soon as the dictionary contains the empty word, the whole
`find_all_words` run raises an `IndexError`. -/
theorem fawGo_empty_word (board : List (List Char)) :
    ∀ (ws acc : List (List Char)), [] ∈ ws → fawGo board ws acc = .indexError
  | [], _, h => absurd h (List.not_mem_nil _)
  | w0 :: ws, acc, h => by
    show (match can_form_word_dfs board w0 with
      | .indexError => PyResult.indexError
      | .ok true => fawGo board ws (acc ++ [w0])
      | .ok false => fawGo board ws acc) = .indexError
    by_cases hw0 : w0 = ([] : List Char)
    · subst hw0
      rfl
    · have hmem : ([] : List Char) ∈ ws := by
        rcases List.mem_cons.mp h with heq | hmem
        · exact absurd heq.symm hw0
        · exact hmem
      cases hc : can_form_word_dfs board w0 with
      | indexError => rfl
      | ok b =>
        cases b with
        | true => exact fawGo_empty_word board ws (acc ++ [w0]) hmem
        | false => exact fawGo_empty_word board ws acc hmem

/-- With an in-bounds start on a rectangular grid, `flood_fill_dfs` never
raises an `IndexError`: its only unguarded access is the start-cell read. -/
theorem flood_fill_no_err {α : Type} [DecidableEq α] (p : FloodFillProblem α)
    (hS : Shape (rowsOf p.matrix) (colsOf p.matrix) p.matrix)
    (hg : inGuard (rowsOf p.matrix) (colsOf p.matrix) p.start) (fuel : Nat) :
    flood_fill_dfs p fuel ≠ some .indexError := by
  obtain ⟨v, hv⟩ := pyGet2_isSome hS hg
  simp only [flood_fill_dfs, hv]
  by_cases hvt : v = p.target_color
  · rw [if_pos hvt]
    cases hloop : floodLoop (rowsOf p.matrix) (colsOf p.matrix) p.target_color
        p.replacement_color fuel
        (pySet2 p.matrix p.start.1 p.start.2 p.replacement_color) [p.start] with
    | none => simp
    | some m2 => simp
  · rw [if_neg hvt]
    simp

/-! ## Claim theorems -/

/-- Claim C1, counterexample: the claim quantifies over every pair of
colours, but with `target_color = replacement_color` on the grid
`[["X", "X"]]` (start `(0, 0)`) `flood_fill_dfs` never returns — painting
does not invalidate the `== target_color` neighbour test, so the two
cells re-enqueue each other forever. -/
theorem C1_counterexample :
    ffDiverges (⟨[['X', 'X']], (0, 0), 'X', 'X'⟩ : FloodFillProblem Char) := by
  intro fuel
  exact (flood_fill_same_colors (⟨[['X', 'X']], (0, 0), 'X', 'X'⟩ : FloodFillProblem Char)
    (by decide) (by decide) (by decide)).2 (by decide) fuel

/-- Claim C1 (amended with `target_color ≠ replacement_color`): for every
rectangular grid, in-bounds start coordinate and distinct colours,
`flood_fill_dfs` terminates, every cell 4-connected-reachable from the
start through cells originally equal to `target_color` ends up holding
`replacement_color`, and every other cell of the grid is unchanged. -/
theorem C1_flood_fill_fills_reachable_region {α : Type} [DecidableEq α]
    (p : FloodFillProblem α)
    (hS : Shape (rowsOf p.matrix) (colsOf p.matrix) p.matrix)
    (hg : inGuard (rowsOf p.matrix) (colsOf p.matrix) p.start)
    (hne : p.target_color ≠ p.replacement_color) :
    ∃ m2, (∀ fuel, 2 * (rowsOf p.matrix * colsOf p.matrix) + 1 ≤ fuel →
        flood_fill_dfs p fuel = some (.ok m2)) ∧
      (∀ q, Reach (rowsOf p.matrix) (colsOf p.matrix) p.target_color p.matrix p.start q →
        pyGet2 m2 q.1 q.2 = some p.replacement_color) ∧
      (∀ q, inGuard (rowsOf p.matrix) (colsOf p.matrix) q →
        ¬ Reach (rowsOf p.matrix) (colsOf p.matrix) p.target_color p.matrix p.start q →
        pyGet2 m2 q.1 q.2 = pyGet2 p.matrix q.1 q.2) :=
  flood_fill_dfs_correct p hS hg hne

/-- Claim C1, witness: the amended theorem applied to the concrete
problem of recolouring the 1×2 grid `[["X", "Y"]]` from `"X"` to `"C"`. -/
theorem C1_witness :
    ∃ m2, (∀ fuel, 2 * (rowsOf ([['X', 'Y']] : List (List Char)) *
          colsOf ([['X', 'Y']] : List (List Char))) + 1 ≤ fuel →
        flood_fill_dfs (⟨[['X', 'Y']], (0, 0), 'X', 'C'⟩ : FloodFillProblem Char) fuel =
          some (.ok m2)) ∧
      (∀ q, Reach (rowsOf ([['X', 'Y']] : List (List Char)))
          (colsOf ([['X', 'Y']] : List (List Char))) 'X' [['X', 'Y']] (0, 0) q →
        pyGet2 m2 q.1 q.2 = some 'C') ∧
      (∀ q, inGuard (rowsOf ([['X', 'Y']] : List (List Char)))
          (colsOf ([['X', 'Y']] : List (List Char))) q →
        ¬ Reach (rowsOf ([['X', 'Y']] : List (List Char)))
          (colsOf ([['X', 'Y']] : List (List Char))) 'X' [['X', 'Y']] (0, 0) q →
        pyGet2 m2 q.1 q.2 = pyGet2 [['X', 'Y']] q.1 q.2) :=
  C1_flood_fill_fills_reachable_region
    (⟨[['X', 'Y']], (0, 0), 'X', 'C'⟩ : FloodFillProblem Char)
    (by decide) (by decide) (by decide)

/-- Claim C2, counterexample: with `target_color = replacement_color = "X"`
and the start holding that colour on the 2×1 grid `[["X"], ["X"]]`, the
traversal is not a terminating no-op — re-examination still finds
neighbours matching `target_color` after painting, so `flood_fill_dfs`
never returns. -/
theorem C2_counterexample :
    ffDiverges (⟨[['X'], ['X']], (0, 0), 'X', 'X'⟩ : FloodFillProblem Char) := by
  intro fuel
  exact (flood_fill_same_colors (⟨[['X'], ['X']], (0, 0), 'X', 'X'⟩ : FloodFillProblem Char)
    (by decide) (by decide) (by decide)).2 (by decide) fuel

/-- Claim C2 (amended): when `target_color = replacement_color` and the
in-bounds start cell holds that colour, `flood_fill_dfs` terminates — as
a no-op — exactly when the start cell has no in-bounds 4-neighbour
holding `target_color`; with such a neighbour the loop never returns. -/
theorem C2_same_colors_no_op_or_diverges {α : Type} [DecidableEq α]
    (p : FloodFillProblem α)
    (hg : inGuard (rowsOf p.matrix) (colsOf p.matrix) p.start)
    (hcell : pyGet2 p.matrix p.start.1 p.start.2 = some p.target_color)
    (heq : p.replacement_color = p.target_color) :
    (ffActions (rowsOf p.matrix) (colsOf p.matrix) p.target_color p.matrix p.start = [] →
      ∀ fuel, 1 ≤ fuel → flood_fill_dfs p fuel = some (.ok p.matrix)) ∧
    (ffActions (rowsOf p.matrix) (colsOf p.matrix) p.target_color p.matrix p.start ≠ [] →
      ∀ fuel, flood_fill_dfs p fuel = none) :=
  flood_fill_same_colors p hg hcell heq

/-- Claim C2, witness: on the single-cell grid `[["X"]]` (no neighbours at
all) the same-colour fill does terminate unchanged. -/
theorem C2_witness :
    flood_fill_dfs (⟨[['X']], (0, 0), 'X', 'X'⟩ : FloodFillProblem Char) 1 =
      some (.ok [['X']]) :=
  (C2_same_colors_no_op_or_diverges
    (⟨[['X']], (0, 0), 'X', 'X'⟩ : FloodFillProblem Char)
    (by decide) (by decide) (by decide)).1 (by decide) 1 (by decide)

/-- Claim C3, counterexample: "ACT" can in fact be traced in the grid
`[["C","A","T"],["A","T","C"]]` — A at `(0,1)`, C at `(0,0)` (west),
T at `(1,1)` (south-east), all distinct cells — so the claim's expected
set `{"CAT"}` with "ACT" absent is wrong. -/
theorem C3_counterexample :
    can_form_word_dfs [['C', 'A', 'T'], ['A', 'T', 'C']] ['A', 'C', 'T'] =
      .ok true := by
  decide

/-- Claim C3 (amended): on the grid `[["C","A","T"],["A","T","C"]]` with
dictionary `{"CAT", "ACT", "DOG"}`, `find_all_words` returns exactly the
set `{"CAT", "ACT"}`; "DOG" is absent. -/
theorem C3_find_all_words_demo :
    find_all_words [['C', 'A', 'T'], ['A', 'T', 'C']]
      [['C', 'A', 'T'], ['A', 'C', 'T'], ['D', 'O', 'G']] =
      .ok [['C', 'A', 'T'], ['A', 'C', 'T']] := by
  decide

/-- Claim C4, counterexample: `flood_fill_dfs` reads the start cell with a
plain `matrix[r][c]` before any bounds check, so for the out-of-range
input coordinates `(5, 5)` on the 1×1 grid `[["X"]]` it performs a read
at row index 5 ∉ [0, 1) and raises `IndexError`. -/
theorem C4_counterexample :
    flood_fill_dfs (⟨[['X']], (5, 5), 'X', 'C'⟩ : FloodFillProblem Char) 0 =
      some .indexError := by
  decide

/-- Claim C4 (amended): every access inside the traversal loops is
bounds-checked, but the start-cell read of `flood_fill_dfs` and the
current-cell read of `dfs_longest`'s `actions` are not; the no
out-of-bounds-access property therefore holds only for in-bounds input
coordinates: under them neither traversal ever raises `IndexError`
(the word-search `dfs` checks bounds before every access and is total). -/
theorem C4_guarded_accesses_in_bounds :
    (∀ (α : Type) [DecidableEq α] (p : FloodFillProblem α) (fuel : Nat),
      Shape (rowsOf p.matrix) (colsOf p.matrix) p.matrix →
      inGuard (rowsOf p.matrix) (colsOf p.matrix) p.start →
      flood_fill_dfs p fuel ≠ some .indexError) ∧
    (∀ (q : LongestConsecutivePathProblem) (s : Coord) (fuel : Nat),
      0 ≤ s.1 → 0 ≤ s.2 → (∃ v, pyGet2 q.matrix s.1 s.2 = some v) →
      dfs_longest q fuel s ≠ some .indexError) := by
  constructor
  · intro α _ p fuel hS hg
    exact flood_fill_no_err p hS hg fuel
  · intro q s fuel h1 h2 hv
    exact dfs_longest_no_err q fuel s h1 h2 hv

/-- Claim C4, witness: the amended theorem applied to an in-bounds flood
fill on `[["X"]]` and an in-bounds longest-path descent on `[[5]]`. -/
theorem C4_witness :
    flood_fill_dfs (⟨[['X']], (0, 0), 'X', 'C'⟩ : FloodFillProblem Char) 3 ≠
      some .indexError ∧
    dfs_longest (⟨[[5]], 5⟩ : LongestConsecutivePathProblem) 2 (0, 0) ≠
      some .indexError :=
  ⟨C4_guarded_accesses_in_bounds.1 Char
      (⟨[['X']], (0, 0), 'X', 'C'⟩ : FloodFillProblem Char) 3 (by decide) (by decide),
    C4_guarded_accesses_in_bounds.2 (⟨[[5]], 5⟩ : LongestConsecutivePathProblem)
      (0, 0) 2 (by decide) (by decide) ⟨5, by decide⟩⟩

/-- Claim C5: `dfs_longest` terminates on every finite grid from every
actual grid cell, with no visited set — each step moves to a cell holding
the strictly greater successor value, so the count of cells with value at
least the current one strictly shrinks; any fuel above the grid size
suffices and the run returns a length. -/
theorem C5_dfs_longest_terminates (p : LongestConsecutivePathProblem)
    (s : Coord) (v : Nat) (h1 : 0 ≤ s.1) (h2 : 0 ≤ s.2)
    (hv : pyGet2 p.matrix s.1 s.2 = some v) :
    ∀ fuel, gridSize p.matrix < fuel → ∃ k, dfs_longest p fuel s = some (.ok k) := by
  intro fuel hfuel
  apply dfs_longest_ok p fuel s v h1 h2 hv
  have := countGE_le_gridSize v p.matrix
  omega

/-- Claim C5, witness: the termination theorem applied to the one-cell
grid `[[7]]` with fuel 2. -/
theorem C5_witness :
    ∃ k, dfs_longest (⟨[[7]], 7⟩ : LongestConsecutivePathProblem) 2 (0, 0) =
      some (.ok k) :=
  C5_dfs_longest_terminates (⟨[[7]], 7⟩ : LongestConsecutivePathProblem)
    (0, 0) 7 (by decide) (by decide) (by decide) 2 (by decide)

/-- Claim C6: on a rectangular grid, `find_longest_consecutive_path`
returns at least 1 whenever `start_char` occurs in some cell of the grid
(for any fuel above the grid size) and returns exactly 0 whenever it
occurs in no cell. -/
theorem C6_find_longest_pos_iff_occurs (p : LongestConsecutivePathProblem)
    (hS : Shape (rowsOf p.matrix) (colsOf p.matrix) p.matrix) :
    (occursIn p.matrix p.start_char →
      ∀ fuel, gridSize p.matrix < fuel →
        ∃ k, find_longest_consecutive_path p fuel = some (.ok k) ∧ 1 ≤ k) ∧
    (¬ occursIn p.matrix p.start_char →
      ∀ fuel, find_longest_consecutive_path p fuel = some (.ok 0)) := by
  constructor
  · intro hocc fuel hfuel
    exact (find_longest_spec p).1 ((occursIn_iff_occursB hS).mp hocc) fuel hfuel
  · intro hnocc fuel
    refine (find_longest_spec p).2 ?_ fuel
    cases hb : occursB p.matrix p.start_char with
    | false => rfl
    | true => exact absurd ((occursIn_iff_occursB hS).mpr hb) hnocc

/-- Claim C6, witness: the theorem applied to the one-cell grid `[[5]]`
whose only cell holds the start character. -/
theorem C6_witness :
    ∃ k, find_longest_consecutive_path (⟨[[5]], 5⟩ : LongestConsecutivePathProblem) 2 =
      some (.ok k) ∧ 1 ≤ k :=
  (C6_find_longest_pos_iff_occurs (⟨[[5]], 5⟩ : LongestConsecutivePathProblem)
    (by decide)).1 ⟨0, 0, [5], rfl, rfl⟩ 2 (by decide)

/-- Claim C7: a word strictly longer than `rows × cols` is never traceable
(`can_form_word_dfs` answers `False` — the no-reuse constraint makes the
committed path a duplicate-free list of in-bounds cells, so its length is
at most the number of cells), hence such a word is never in the result of
`find_all_words`. -/
theorem C7_long_word_never_found (board : List (List Char)) (word : List Char)
    (h : rowsOf board * colsOf board < word.length) :
    can_form_word_dfs board word = .ok false ∧
    (∀ dictionary res, find_all_words board dictionary = .ok res → word ∉ res) := by
  have hfalse := can_form_long_word board word h
  refine ⟨hfalse, ?_⟩
  intro dict res hres hmem
  rcases fawGo_sound board dict [] res hres word hmem with habs | hok
  · exact absurd habs (List.not_mem_nil word)
  · rw [hfalse] at hok
    exact Bool.noConfusion (PyResult.ok.inj hok)

/-- Claim C7, witness: the two-letter word "BC" on the 1×1 grid `[["A"]]`. -/
theorem C7_witness :
    can_form_word_dfs [['A']] ['B', 'C'] = .ok false :=
  (C7_long_word_never_found [['A']] ['B', 'C'] (by decide)).1

/-- Claim C8: whenever the start cell's colour differs from
`target_color`, `flood_fill_dfs` returns the grid unchanged for any fuel
(the precondition check returns before the loop), covering a start that
already holds the replacement colour or any unrelated colour. -/
theorem C8_no_op_when_start_not_target {α : Type} [DecidableEq α]
    (p : FloodFillProblem α) (v : α)
    (hv : pyGet2 p.matrix p.start.1 p.start.2 = some v)
    (hne : v ≠ p.target_color) (fuel : Nat) :
    flood_fill_dfs p fuel = some (.ok p.matrix) := by
  simp only [flood_fill_dfs, hv]
  rw [if_neg hne]

/-- Claim C8, witness: filling from a `"Y"` cell with target `"X"` leaves
the grid `[["Y"]]` untouched. -/
theorem C8_witness :
    flood_fill_dfs (⟨[['Y']], (0, 0), 'X', 'C'⟩ : FloodFillProblem Char) 5 =
      some (.ok [['Y']]) :=
  C8_no_op_when_start_not_target
    (⟨[['Y']], (0, 0), 'X', 'C'⟩ : FloodFillProblem Char) 'Y'
    (by decide) (by decide) 5

/-- Claim C9: the visited set of one word-search attempt holds exactly the
committed partial path — when `dfs` fails it hands back the entry set
unchanged (every mark removed on backtracking), and when it succeeds the
final set is the entry set plus one fresh, duplicate-free, in-bounds cell
per matched character. -/
theorem C9_visited_set_invariant (board : List (List Char)) (rows cols : Nat)
    (rest : List Char) (r c : Int) (visited : List Coord) :
    ((wsDfs board rows cols rest r c visited).1 = false →
      (wsDfs board rows cols rest r c visited).2 = visited) ∧
    ((wsDfs board rows cols rest r c visited).1 = true →
      ∃ path, (wsDfs board rows cols rest r c visited).2 = path ++ visited ∧
        path.length = rest.length ∧ path.Nodup ∧
        (∀ q ∈ path, q ∉ visited) ∧ (∀ q ∈ path, inGuard rows cols q)) :=
  wsDfs_spec board rows cols rest r c visited

/-- Claim C9, witness: a failing one-letter attempt (no `"Z"` at `(0,0)`
of `[["A"]]`) returns with the visited set restored to empty. -/
theorem C9_witness :
    (wsDfs [['A']] 1 1 ['Z'] 0 0 []).2 = [] :=
  (C9_visited_set_invariant [['A']] 1 1 ['Z'] 0 0 []).1 (by decide)

/-- Claim C10: `can_form_word_dfs` reads `word[0]` before scanning the
grid, so a zero-length word raises `IndexError` on every grid rather than
returning a Boolean, and `find_all_words` raises whenever the dictionary
contains an empty string. -/
theorem C10_empty_word_index_error (board : List (List Char)) :
    can_form_word_dfs board [] = .indexError ∧
    (∀ dictionary, [] ∈ dictionary → find_all_words board dictionary = .indexError) := by
  refine ⟨rfl, ?_⟩
  intro dict hmem
  exact fawGo_empty_word board dict [] hmem

/-- Claim C10, witness: the empty word on the grid `[["A"]]`, alone in the
dictionary. -/
theorem C10_witness :
    can_form_word_dfs [['A']] [] = .indexError ∧
      find_all_words [['A']] [[]] = .indexError :=
  ⟨(C10_empty_word_index_error [['A']]).1,
    (C10_empty_word_index_error [['A']]).2 [[]] (by decide)⟩
